import Mathlib

/-!
Shallow embedding of the FGIndexEstimator core (src/utils.py, src/fg_core.py).

Series are lists of optional rationals: `none` models a missing (NaN) entry,
`some x` a present float value.  Timestamps are list positions; the panel's
date index is carried separately as a list of naturals where needed.
-/

namespace FGI

section
attribute [local semireducible] Rat.add Rat.mul Rat.sub Rat.inv Rat.ofScientific

/-- A time series column: one optional value per row, `none` = NaN. -/
abbrev Col := List (Option ℚ)

/-- Mirrors `Series.dropna()`: keep the present values, in order. -/
def dropna (s : Col) : List ℚ := s.filterMap id

/-- Mirrors the historical-window slice in `percentile_score`
(`src/utils.py` lines 89-93): the full prefix up to and including `i`
when `window is None`, otherwise the trailing slice
`s.iloc[max(0, i - window + 1) : i + 1]`, with NaN dropped. -/
def histSlice (window : Option Nat) (s : Col) (i : Nat) : List ℚ :=
  match window with
  | none => dropna (s.take (i + 1))
  | some w => dropna ((s.take (i + 1)).drop (i + 1 - w))

/-- Linear-interpolation quantile of a nonempty sample, mirroring
`Series.quantile(q)` with the default `interpolation='linear'`:
on the sorted values `x_0 ≤ … ≤ x_{n-1}`, with `h = q*(n-1)`,
returns `x_⌊h⌋ + (h - ⌊h⌋) * (x_⌈h⌉ - x_⌊h⌋)`. -/
def quantile (xs : List ℚ) (q : ℚ) : ℚ :=
  let srt := xs.insertionSort (· ≤ ·)
  let h : ℚ := q * ((xs.length : ℚ) - 1)
  let lo := h.floor.toNat
  let hi := h.ceil.toNat
  let xlo := srt.getD lo 0
  let xhi := srt.getD hi 0
  xlo + (h - (h.floor : ℚ)) * (xhi - xlo)

/-- Mirrors `Series.clip(q_low, q_high)` elementwise
(numpy semantics: `min(max(x, lo), hi)`). -/
def winsorize (qlow qhigh : ℚ) (xs : List ℚ) : List ℚ :=
  xs.map (fun x => min (max x qlow) qhigh)

/-- Mirrors `hist.rank(pct=True).iloc[-1]` (`src/utils.py` line 104):
pandas percentile rank of the last element with the default
`method='average'`: `(#{x < v} + (#{x = v} + 1)/2) / n` where `v` is the
last element and the tie count `#{x = v}` includes `v` itself. -/
def rankPctLast (xs : List ℚ) : ℚ :=
  let v := xs.getLast?.getD 0
  let n : ℚ := xs.length
  let lt : ℚ := (xs.filter (fun x => x < v)).length
  let eq : ℚ := (xs.filter (fun x => x = v)).length
  (lt + (eq + 1) / 2) / n

/-- Configuration of `percentile_score` (its keyword parameters). -/
structure ScoreConfig where
  invert : Bool := false
  min_periods : Nat := 252
  window : Option Nat := some 1260
  lower_q : Option ℚ := some (1 / 100)
  upper_q : Option ℚ := some (99 / 100)

/-- Score of `percentile_score` at one position `i`, mirroring the loop body
of `src/utils.py` lines 84-109: missing raw value gives a missing score;
fewer than `min_periods` non-missing historical observations gives a missing
score; otherwise the historical sample is winsorized at the
`lower_q`/`upper_q` quantiles (when both are set) and the pandas percentile
rank of the last (current) entry, scaled to 0-100 and optionally inverted,
is emitted. -/
def scoreAt (cfg : ScoreConfig) (s : Col) (i : Nat) : Option ℚ :=
  match s.getD i none with
  | none => none
  | some _ =>
    let hist := histSlice cfg.window s i
    if hist.length < cfg.min_periods then none
    else
      let hist2 :=
        match cfg.lower_q, cfg.upper_q with
        | some lq, some uq => winsorize (quantile hist lq) (quantile hist uq) hist
        | _, _ => hist
      let score := rankPctLast hist2 * 100
      some (if cfg.invert then 100 - score else score)

/-- Mirrors `percentile_score` (`src/utils.py` lines 60-111): the output
series, aligned with the input. -/
def percentile_score (cfg : ScoreConfig) (s : Col) : Col :=
  (List.range s.length).map (scoreAt cfg s)

/-! ### Basic facts about `percentile_score` -/

theorem getD_range_map {α : Type} (f : Nat → α) (n t : Nat) (d : α) (h : t < n) :
    ((List.range n).map f).getD t d = f t := by
  rw [List.getD_eq_getElem?_getD]
  simp [List.getElem?_range, h]

/-- Reading `percentile_score` at an in-range position gives `scoreAt`. -/
theorem percentile_score_getD (cfg : ScoreConfig) (s : Col) (t : Nat) (h : t < s.length) :
    (percentile_score cfg s).getD t none = scoreAt cfg s t :=
  getD_range_map _ _ _ _ h

theorem getD_take_self (s : Col) (t : Nat) :
    (s.take (t + 1)).getD t none = s.getD t none := by
  rw [List.getD_eq_getElem?_getD, List.getD_eq_getElem?_getD, List.getElem?_take]
  simp

/-- The historical sample at `t` only depends on the prefix of the series up
to and including `t`. -/
theorem histSlice_take (w : Option Nat) (s : Col) (t : Nat) :
    histSlice w (s.take (t + 1)) t = histSlice w s t := by
  cases w <;> simp [histSlice, List.take_take]

theorem scoreAt_take (cfg : ScoreConfig) (s : Col) (t : Nat) :
    scoreAt cfg (s.take (t + 1)) t = scoreAt cfg s t := by
  unfold scoreAt
  rw [getD_take_self, histSlice_take]

theorem percentile_score_getD_oob (cfg : ScoreConfig) (s : Col) (t : Nat)
    (h : s.length ≤ t) : (percentile_score cfg s).getD t none = none := by
  rw [List.getD_eq_getElem?_getD]
  have : (percentile_score cfg s).length ≤ t := by
    simpa [percentile_score] using h
  simp [List.getElem?_eq_none this]

/-- Sample configuration used by witnesses: expanding window, warm-up of one
observation, default winsorization quantiles. -/
def cfgExp : ScoreConfig :=
  { invert := false, min_periods := 1, window := none,
    lower_q := some (1 / 100), upper_q := some (99 / 100) }

/-- Sample configuration with a two-observation warm-up. -/
def cfgTwo : ScoreConfig :=
  { invert := false, min_periods := 2, window := none,
    lower_q := some (1 / 100), upper_q := some (99 / 100) }

/-- C1: no look-ahead.  For every component series, every configuration and
every position `t`, the score at `t` computed by `percentile_score` on the
series truncated to entries at or before `t` equals the score at `t`
computed on the full series, and the historical sample used at `t` is
entirely determined by (in fact computed from) the truncated series, so it
never includes any timestamp after `t`. -/
theorem C1_no_lookahead (cfg : ScoreConfig) (s : Col) (t : Nat) (ht : t < s.length) :
    (percentile_score cfg (s.take (t + 1))).getD t none
      = (percentile_score cfg s).getD t none
    ∧ histSlice cfg.window s t = histSlice cfg.window (s.take (t + 1)) t := by
  constructor
  · rw [percentile_score_getD cfg _ t (by simp [List.length_take]; omega),
      percentile_score_getD cfg s t ht, scoreAt_take]
  · exact (histSlice_take _ s t).symm

/-- Witness for C1 at a concrete series and configuration. -/
theorem C1_no_lookahead_witness :
    (percentile_score cfgExp ([some 1, some 2].take 1)).getD 0 none
      = (percentile_score cfgExp [some 1, some 2]).getD 0 none
    ∧ histSlice cfgExp.window [some 1, some 2] 0
      = histSlice cfgExp.window ([some 1, some 2].take 1) 0 :=
  C1_no_lookahead cfgExp [some 1, some 2] 0 (by decide)

/-- C3: warm-up and missing-data policy.  At every in-range position the
score is missing exactly when the raw value at `t` is missing or the count
of non-missing historical observations in the window ending at `t` is below
`min_periods`; in particular the score is defined as soon as the raw value
is present and the count reaches `min_periods`.  `scoreAt` is a total
function, so the insufficient-history condition never raises. -/
theorem C3_warmup (cfg : ScoreConfig) (s : Col) (t : Nat) (ht : t < s.length) :
    ((percentile_score cfg s).getD t none = none ↔
      s.getD t none = none ∨ (histSlice cfg.window s t).length < cfg.min_periods) := by
  rw [percentile_score_getD cfg s t ht]
  unfold scoreAt
  cases hv : s.getD t none with
  | none => simp
  | some v =>
    by_cases hlen : (histSlice cfg.window s t).length < cfg.min_periods
    · simp [hlen]
    · simp [hlen]

/-- Witness for C3 at a concrete series and configuration. -/
theorem C3_warmup_witness :
    ((percentile_score cfgExp [some 5]).getD 0 none = none ↔
      ([some 5] : Col).getD 0 none = none
        ∨ (histSlice cfgExp.window [some 5] 0).length < cfgExp.min_periods) :=
  C3_warmup cfgExp [some 5] 0 (by decide)

/-- Flipping only the `invert` flag maps every score through `100 - ·` and
keeps missing entries missing. -/
theorem scoreAt_invert (cfg : ScoreConfig) (s : Col) (t : Nat) :
    scoreAt { cfg with invert := true } s t
      = (scoreAt { cfg with invert := false } s t).map (fun x => 100 - x) := by
  unfold scoreAt
  cases s.getD t none with
  | none => rfl
  | some v =>
    by_cases hlen : (histSlice cfg.window s t).length < cfg.min_periods
    · simp [hlen]
    · simp [hlen]

/-- C6: invert symmetry.  Whenever the non-inverted score is defined with
value `r`, the inverted score on the same series, position and otherwise
identical configuration is exactly `100 - r`. -/
theorem C6_invert_symmetry (cfg : ScoreConfig) (s : Col) (t : Nat) (r : ℚ)
    (h : (percentile_score { cfg with invert := false } s).getD t none = some r) :
    (percentile_score { cfg with invert := true } s).getD t none = some (100 - r) := by
  have ht : t < s.length := by
    by_contra hc
    rw [percentile_score_getD_oob _ s t (Nat.le_of_not_lt hc)] at h
    exact Option.noConfusion h
  rw [percentile_score_getD _ s t ht] at h ⊢
  rw [scoreAt_invert, h]
  rfl

/-- Witness for C6 at a concrete series and configuration. -/
theorem C6_invert_symmetry_witness :
    (percentile_score { cfgTwo with invert := true } [some 5, some 5]).getD 1 none
      = some (100 - 75) :=
  C6_invert_symmetry cfgTwo [some 5, some 5] 1 75 (by decide)

/-! ### Rank semantics (claim C2) -/

/-- Modelled from the spec's words (claim C2): the fraction of winsorized
historical values less than or equal to a given value, ties included. -/
def specFracLeRank (xs : List ℚ) (v : ℚ) : ℚ :=
  ((xs.filter (fun x => x ≤ v)).length : ℚ) / xs.length

/-- Pandas average-method percentile rank of a value `v` against a sample
`xs`: strictly smaller count plus half the tie block (ties include `v`
itself), divided by the sample size. -/
def avgRankPct (xs : List ℚ) (v : ℚ) : ℚ :=
  (((xs.filter (fun x => x < v)).length : ℚ)
    + (((xs.filter (fun x => x = v)).length : ℚ) + 1) / 2) / xs.length

/-- The winsorized historical sample that `scoreAt` actually ranks against
(the `hist2` of `src/utils.py` lines 99-101). -/
def winsorizedSample (cfg : ScoreConfig) (s : Col) (t : Nat) : List ℚ :=
  match cfg.lower_q, cfg.upper_q with
  | some lq, some uq =>
    let hist := histSlice cfg.window s t
    winsorize (quantile hist lq) (quantile hist uq) hist
  | _, _ => histSlice cfg.window s t

/-- The image of the current raw value under the winsorization clip used at
position `t` (the identity when winsorization is disabled). -/
def clipCurrent (cfg : ScoreConfig) (s : Col) (t : Nat) (v : ℚ) : ℚ :=
  match cfg.lower_q, cfg.upper_q with
  | some lq, some uq =>
    let hist := histSlice cfg.window s t
    min (max v (quantile hist lq)) (quantile hist uq)
  | _, _ => v

theorem rankPctLast_eq_avgRank (xs : List ℚ) (c : ℚ)
    (h : xs.getLast?.getD 0 = c) : rankPctLast xs = avgRankPct xs c := by
  unfold rankPctLast avgRankPct
  rw [h]

/-- The historical sample at an in-range position with a present raw value
ends with precisely that raw value (rolling windows of size at least one, or
expanding mode). -/
theorem histSlice_concat (w : Option Nat) (s : Col) (t : Nat) (v : ℚ)
    (ht : t < s.length) (hv : s.getD t none = some v)
    (hw : w = none ∨ ∃ k, w = some (k + 1)) :
    ∃ pre : List ℚ, histSlice w s t = pre ++ [v] := by
  have hget : s[t]? = some (some v) := by
    rw [List.getD_eq_getElem?_getD, List.getElem?_eq_getElem ht] at hv
    rw [List.getElem?_eq_getElem ht]
    simpa using hv
  have htake : s.take (t + 1) = s.take t ++ [some v] := by
    rw [List.take_succ, hget]
    rfl
  rcases hw with hw | ⟨k, hw⟩
  · refine ⟨dropna (s.take t), ?_⟩
    subst hw
    simp [histSlice, htake, dropna]
  · refine ⟨dropna ((s.take t).drop (t - k)), ?_⟩
    subst hw
    have hle : t - k ≤ (s.take t).length := by
      simp [List.length_take]
      omega
    simp [histSlice, htake, List.drop_append_of_le_length hle, dropna]

theorem quantile_singleton (v q : ℚ) : quantile [v] q = v := by
  have h1 : Rat.floor 0 = 0 := by decide
  have h2 : Rat.ceil 0 = 0 := by decide
  unfold quantile
  norm_num [h1, h2]

/-- Counting values ≤ `c` splits into the strictly-smaller count and the tie
count. -/
theorem length_filter_le_split (xs : List ℚ) (c : ℚ) :
    (xs.filter (fun x => x ≤ c)).length
      = (xs.filter (fun x => x < c)).length + (xs.filter (fun x => x = c)).length := by
  induction xs with
  | nil => rfl
  | cons a l ih =>
    by_cases h1 : a ≤ c
    · rcases lt_or_eq_of_le h1 with h2 | h2
      · have h3 : a ≠ c := ne_of_lt h2
        simp [List.filter_cons, h1, h2, h3, ih]
        omega
      · have h3 : ¬ a < c := by simp [h2]
        simp [List.filter_cons, h1, h2, h3, ih]
        omega
    · have h2 : ¬ a < c := fun hc => h1 (le_of_lt hc)
      have h3 : a ≠ c := fun hc => h1 (le_of_eq hc)
      simp [List.filter_cons, h1, h2, h3, ih]

/-- The last element of the winsorized sample is the winsorized image of the
current raw value. -/
theorem winsorizedSample_getLast (cfg : ScoreConfig) (s : Col) (t : Nat) (v : ℚ)
    (ht : t < s.length) (hv : s.getD t none = some v)
    (hw : cfg.window = none ∨ ∃ k, cfg.window = some (k + 1)) :
    (winsorizedSample cfg s t).getLast?.getD 0 = clipCurrent cfg s t v := by
  obtain ⟨pre, hpre⟩ := histSlice_concat cfg.window s t v ht hv hw
  unfold winsorizedSample clipCurrent
  cases hl : cfg.lower_q with
  | none => simp [hpre, List.getLast?_concat]
  | some lq =>
    cases hu : cfg.upper_q with
    | none => simp [hpre, List.getLast?_concat]
    | some uq => simp [hpre, winsorize, List.getLast?_concat]

/-- Closed form of a defined score: the pandas rank of the winsorized sample,
scaled and optionally inverted. -/
theorem scoreAt_defined (cfg : ScoreConfig) (s : Col) (t : Nat) (v : ℚ)
    (hv : s.getD t none = some v)
    (hmp : ¬ (histSlice cfg.window s t).length < cfg.min_periods) :
    scoreAt cfg s t
      = some (if cfg.invert then 100 - rankPctLast (winsorizedSample cfg s t) * 100
          else rankPctLast (winsorizedSample cfg s t) * 100) := by
  unfold scoreAt winsorizedSample
  rw [hv]
  cases hl : cfg.lower_q <;> cases hu : cfg.upper_q <;> simp [if_neg hmp]

/-- Counterexample to C2 as stated: for the series `[5, 5]` with
`min_periods = 2` and an expanding window, the winsorized historical sample
at `t = 1` is `[5, 5]` and the current value `5` satisfies
"fraction of values ≤ current, ties included" `= 1`, so the claim predicts
score `100`; the code's pandas average rank instead emits `75`
(also refuting "a history reduced to a single invariant value after
winsorization yields rank 1.0" for a two-element invariant history). -/
theorem C2_rank_semantics_cex :
    (percentile_score cfgTwo [some 5, some 5]).getD 1 none = some 75
    ∧ specFracLeRank (winsorizedSample cfgTwo [some 5, some 5] 1) 5 * 100 = 100
    ∧ (75 : ℚ) ≠ 100 :=
  ⟨by decide, by decide, by decide⟩

/-- C2 (amended): whenever `percentile_score` emits a defined score at `t`
(no inversion), the rank is the pandas average-method percentile rank of
the current value's winsorized image within the winsorized historical
sample, scaled to 0-100; that rank equals the fraction of winsorized
values ≤ the (winsorized) current value exactly when the current value is
untied in the winsorized sample; and a history consisting of the single
current observation still yields a defined score of 100 before inversion. -/
theorem C2_rank_semantics (cfg : ScoreConfig) (s : Col) (t : Nat) (v : ℚ)
    (ht : t < s.length) (hv : s.getD t none = some v)
    (hinv : cfg.invert = false)
    (hmp : ¬ (histSlice cfg.window s t).length < cfg.min_periods)
    (hw : cfg.window = none ∨ ∃ k, cfg.window = some (k + 1)) :
    ((percentile_score cfg s).getD t none
        = some (avgRankPct (winsorizedSample cfg s t) (clipCurrent cfg s t v) * 100))
    ∧ (∀ xs : List ℚ, ∀ c : ℚ, (xs.filter (fun x => x = c)).length = 1 →
        avgRankPct xs c = specFracLeRank xs c)
    ∧ (histSlice cfg.window s t = [v] →
        (percentile_score cfg s).getD t none = some 100) := by
  have hbridge := winsorizedSample_getLast cfg s t v ht hv hw
  refine ⟨?_, ?_, ?_⟩
  · rw [percentile_score_getD cfg s t ht, scoreAt_defined cfg s t v hv hmp, hinv]
    rw [rankPctLast_eq_avgRank _ _ hbridge]
    simp
  · intro xs c h1
    unfold avgRankPct specFracLeRank
    rw [length_filter_le_split xs c, h1]
    push_cast
    ring_nf
  · intro h1
    rw [percentile_score_getD cfg s t ht, scoreAt_defined cfg s t v hv hmp, hinv]
    have hws : winsorizedSample cfg s t = [v] := by
      unfold winsorizedSample
      cases hl : cfg.lower_q <;> cases hu : cfg.upper_q <;>
        simp [h1, quantile_singleton, winsorize]
    rw [hws]
    norm_num [rankPctLast]

/-- Witness for the amended C2 at a concrete series and configuration. -/
theorem C2_rank_semantics_witness :
    ((percentile_score cfgTwo [some 5, some 5]).getD 1 none
        = some (avgRankPct (winsorizedSample cfgTwo [some 5, some 5] 1)
            (clipCurrent cfgTwo [some 5, some 5] 1 5) * 100))
    ∧ (∀ xs : List ℚ, ∀ c : ℚ, (xs.filter (fun x => x = c)).length = 1 →
        avgRankPct xs c = specFracLeRank xs c)
    ∧ (histSlice cfgTwo.window [some 5, some 5] 1 = [5] →
        (percentile_score cfgTwo [some 5, some 5]).getD 1 none = some 100) :=
  C2_rank_semantics cfgTwo [some 5, some 5] 1 5 (by decide) (by decide) rfl
    (by decide) (Or.inl rfl)

/-! ### Composite aggregation (`compute_fear_greed`, src/utils.py 371-438) -/

/-- The component/polarity list `FG_COMPONENT_SPECS` of `src/utils.py`:
`true` means `invert=True` (fear-increasing indicator). -/
def FG_COMPONENT_SPECS : List (String × Bool) :=
  [("momentum_spx", false), ("strength_proxy", false), ("breadth_rsp_spx", false),
   ("safe_haven_20d", false), ("junk_bond_mom_20d", false),
   ("put_call", true), ("hy_spread", true), ("vix_rel", true)]

/-- A named-column table (the columns of a pandas `DataFrame`, in order). -/
abbrev Table := List (String × Col)

/-- Mirrors `df[name]`: the first column carrying the given name. -/
def lookupCol (tbl : Table) (name : String) : Option Col :=
  (tbl.find? (fun p => p.1 == name)).map Prod.snd

/-- The per-component score table built by the loop of `compute_fear_greed`
(`src/utils.py` lines 407-418): each spec component present among the input
columns is scored with `percentile_score` at its spec polarity, in spec
order; absent components are skipped. -/
def fgScoreCols (min_periods : Nat) (window : Option Nat) (lower_q upper_q : Option ℚ)
    (components : Table) : Table :=
  FG_COMPONENT_SPECS.filterMap (fun spec =>
    (lookupCol components spec.1).map (fun col =>
      (spec.1, percentile_score
        { invert := spec.2, min_periods := min_periods, window := window,
          lower_q := lower_q, upper_q := upper_q } col)))

/-- Mirrors `scores[comp_cols].mean(axis=1)` at row `i`: the arithmetic mean
of the non-missing entries of the row, missing when all entries are
missing. -/
def meanRow (cols : Table) (i : Nat) : Option ℚ :=
  let vals := cols.filterMap (fun c => c.2.getD i none)
  if vals.length = 0 then none else some (vals.sum / vals.length)

/-- Mirrors `intercept + (scores[w.index] * w).sum(axis=1)` at row `i`: a
missing score contributes nothing to the sum (pandas `sum` skips NaN), so
the result is always a number. -/
def calRow (w : List (String × ℚ)) (intercept : ℚ) (cols : Table) (i : Nat) : ℚ :=
  intercept + (w.map (fun kv =>
    match (lookupCol cols kv.1).bind (fun col => col.getD i none) with
    | some v => kv.2 * v
    | none => 0)).sum

/-- Mirrors `compute_fear_greed` (`src/utils.py` lines 385-438) on a
component table with `nrows` index entries: builds the score columns, then
appends the composite column — all-missing `FG_est` when no component is
available, the unweighted row mean `FG_est_mean` when no weights are given,
or the affine weighted sum `FG_est_cal` (weights restricted to the computed
score columns) otherwise — and returns the table with the composite
column's name. -/
def compute_fear_greed (components : Table) (nrows : Nat)
    (min_periods : Nat) (window : Option Nat) (lower_q upper_q : Option ℚ)
    (weights : Option (List (String × ℚ))) (intercept : ℚ) : Table × String :=
  let scores := fgScoreCols min_periods window lower_q upper_q components
  if scores.length = 0 then
    (scores ++ [("FG_est", List.replicate nrows none)], "FG_est")
  else
    match weights with
    | none =>
      (scores ++ [("FG_est_mean", (List.range nrows).map (fun i => meanRow scores i))],
        "FG_est_mean")
    | some ws =>
      let wf := ws.filter (fun kv => (scores.map Prod.fst).contains kv.1)
      (scores ++ [("FG_est_cal",
          (List.range nrows).map (fun i => some (calRow wf intercept scores i)))],
        "FG_est_cal")

/-- The non-missing values of row `i` across a table's columns. -/
def rowVals (tbl : Table) (i : Nat) : List ℚ :=
  tbl.filterMap (fun c => c.2.getD i none)

/-! ### Range facts -/

/-- The pandas average rank of the last element always lies in `[0, 1]`. -/
theorem rankPctLast_bounds (xs : List ℚ) : 0 ≤ rankPctLast xs ∧ rankPctLast xs ≤ 1 := by
  rcases List.eq_nil_or_concat xs with h | ⟨pre, v, h⟩
  · subst h
    unfold rankPctLast
    norm_num
  · rw [List.concat_eq_append] at h
    subst h
    unfold rankPctLast
    have hlast : (pre ++ [v]).getLast?.getD 0 = v := by simp [List.getLast?_concat]
    rw [hlast]
    have hsplit := length_filter_le_split (pre ++ [v]) v
    have hle : ((pre ++ [v]).filter (fun x => x ≤ v)).length ≤ (pre ++ [v]).length :=
      List.length_filter_le _ _
    have hone : 1 ≤ ((pre ++ [v]).filter (fun x => x = v)).length := by
      have hmem : v ∈ (pre ++ [v]).filter (fun x => x = v) := by
        rw [List.mem_filter]
        exact ⟨by simp, by simp⟩
      exact List.length_pos.mpr (List.ne_nil_of_mem hmem)
    have hn : (0 : ℚ) < (pre ++ [v]).length := by
      have : 0 < (pre ++ [v]).length := by simp
      exact_mod_cast this
    constructor
    · apply div_nonneg _ (le_of_lt hn)
      positivity
    · rw [div_le_one hn]
      have h1 : (1 : ℚ) ≤ ((pre ++ [v]).filter (fun x => x = v)).length := by
        exact_mod_cast hone
      have h2 : (((pre ++ [v]).filter (fun x => x < v)).length : ℚ)
          + (((pre ++ [v]).filter (fun x => x = v)).length : ℚ)
          ≤ ((pre ++ [v]).length : ℚ) := by
        have := hle
        rw [hsplit] at this
        exact_mod_cast this
      linarith

/-- Every defined score of `scoreAt` lies in `[0, 100]`. -/
theorem scoreAt_range (cfg : ScoreConfig) (s : Col) (t : Nat) (x : ℚ)
    (h : scoreAt cfg s t = some x) : 0 ≤ x ∧ x ≤ 100 := by
  cases hv : s.getD t none with
  | none =>
    unfold scoreAt at h
    rw [hv] at h
    exact Option.noConfusion h
  | some v =>
    by_cases hmp : (histSlice cfg.window s t).length < cfg.min_periods
    · unfold scoreAt at h
      rw [hv] at h
      simp [hmp] at h
    · rw [scoreAt_defined cfg s t v hv hmp] at h
      obtain ⟨hlo, hhi⟩ := rankPctLast_bounds (winsorizedSample cfg s t)
      have hx := Option.some.inj h
      cases hcfg : cfg.invert <;> rw [hcfg] at hx <;> simp at hx <;>
        constructor <;> linarith

/-- Every defined entry of a `percentile_score` series lies in `[0, 100]`. -/
theorem percentile_score_range (cfg : ScoreConfig) (s : Col) (i : Nat) (x : ℚ)
    (h : (percentile_score cfg s).getD i none = some x) : 0 ≤ x ∧ x ≤ 100 := by
  by_cases hi : i < s.length
  · rw [percentile_score_getD _ _ _ hi] at h
    exact scoreAt_range _ _ _ _ h
  · rw [percentile_score_getD_oob _ _ _ (Nat.le_of_not_lt hi)] at h
    exact Option.noConfusion h

/-- A mean of row values all within `[0, 100]` stays within `[0, 100]`. -/
theorem meanRow_bounds (cols : Table) (i : Nat) (m : ℚ)
    (hb : ∀ p ∈ cols, ∀ x : ℚ, p.2.getD i none = some x → 0 ≤ x ∧ x ≤ 100)
    (h : meanRow cols i = some m) : 0 ≤ m ∧ m ≤ 100 := by
  unfold meanRow at h
  by_cases hz : (cols.filterMap (fun c => c.2.getD i none)).length = 0
  · rw [if_pos hz] at h
    exact Option.noConfusion h
  · rw [if_neg hz] at h
    have hm := Option.some.inj h
    set vals := cols.filterMap (fun c => c.2.getD i none) with hvals
    have hmem : ∀ x ∈ vals, 0 ≤ x ∧ x ≤ 100 := by
      intro x hx
      rw [hvals, List.mem_filterMap] at hx
      obtain ⟨p, hp, hpx⟩ := hx
      exact hb p hp x hpx
    have hpos : (0 : ℚ) < vals.length := by
      have : 0 < vals.length := Nat.pos_of_ne_zero hz
      exact_mod_cast this
    have hsum0 : 0 ≤ vals.sum := List.sum_nonneg (fun x hx => (hmem x hx).1)
    have hsum1 : vals.sum ≤ (vals.length : ℚ) * 100 := by
      have := List.sum_le_card_nsmul vals 100 (fun x hx => (hmem x hx).2)
      simpa [nsmul_eq_mul] using this
    subst hm
    constructor
    · exact div_nonneg hsum0 (le_of_lt hpos)
    · rw [div_le_iff₀ hpos]
      linarith

/-- Looking up the freshly appended composite column succeeds when no earlier
column shares its name. -/
theorem lookupCol_append_last (tbl : Table) (nm : String) (c : Col)
    (h : ∀ p ∈ tbl, p.1 ≠ nm) : lookupCol (tbl ++ [(nm, c)]) nm = some c := by
  induction tbl with
  | nil => simp [lookupCol]
  | cons a l ih =>
    have ha : a.1 ≠ nm := h a (by simp)
    have hl : ∀ p ∈ l, p.1 ≠ nm := fun p hp => h p (by simp [hp])
    unfold lookupCol at ih ⊢
    rw [List.cons_append, List.find?_cons]
    have : (a.1 == nm) = false := by
      simp [ha]
    rw [this]
    exact ih hl

/-- Every column name produced by `fgScoreCols` is one of the spec component
names. -/
theorem fgScoreCols_names (mp : Nat) (w : Option Nat) (lq uq : Option ℚ)
    (comps : Table) :
    ∀ p ∈ fgScoreCols mp w lq uq comps, p.1 ∈ FG_COMPONENT_SPECS.map Prod.fst := by
  intro p hp
  unfold fgScoreCols at hp
  rw [List.mem_filterMap] at hp
  obtain ⟨spec, hspec, hmap⟩ := hp
  cases hlook : lookupCol comps spec.1 with
  | none => rw [hlook] at hmap; exact Option.noConfusion hmap
  | some col =>
    rw [hlook] at hmap
    have := Option.some.inj hmap
    rw [List.mem_map]
    exact ⟨spec, hspec, by rw [← this]⟩

/-- Every column of `fgScoreCols` is a `percentile_score` output. -/
theorem fgScoreCols_entry_range (mp : Nat) (w : Option Nat) (lq uq : Option ℚ)
    (comps : Table) :
    ∀ p ∈ fgScoreCols mp w lq uq comps, ∀ i : Nat, ∀ x : ℚ,
      p.2.getD i none = some x → 0 ≤ x ∧ x ≤ 100 := by
  intro p hp i x hx
  unfold fgScoreCols at hp
  rw [List.mem_filterMap] at hp
  obtain ⟨spec, hspec, hmap⟩ := hp
  cases hlook : lookupCol comps spec.1 with
  | none => rw [hlook] at hmap; exact Option.noConfusion hmap
  | some col =>
    rw [hlook] at hmap
    have hcol := Option.some.inj hmap
    have hp2 : p.2 = percentile_score
        { invert := spec.2, min_periods := mp, window := w,
          lower_q := lq, upper_q := uq } col := by
      rw [← hcol]
    rw [hp2] at hx
    exact percentile_score_range _ _ _ _ hx

theorem compute_fear_greed_empty (comps : Table) (nrows mp : Nat) (w : Option Nat)
    (lq uq : Option ℚ) (weights : Option (List (String × ℚ))) (intercept : ℚ)
    (hz : (fgScoreCols mp w lq uq comps).length = 0) :
    compute_fear_greed comps nrows mp w lq uq weights intercept
      = (fgScoreCols mp w lq uq comps ++ [("FG_est", List.replicate nrows none)],
        "FG_est") := by
  simp only [compute_fear_greed]
  rw [if_pos hz]

theorem compute_fear_greed_mean (comps : Table) (nrows mp : Nat) (w : Option Nat)
    (lq uq : Option ℚ) (intercept : ℚ)
    (hz : ¬ (fgScoreCols mp w lq uq comps).length = 0) :
    compute_fear_greed comps nrows mp w lq uq none intercept
      = (fgScoreCols mp w lq uq comps
          ++ [("FG_est_mean",
            (List.range nrows).map (fun i => meanRow (fgScoreCols mp w lq uq comps) i))],
        "FG_est_mean") := by
  simp only [compute_fear_greed]
  rw [if_neg hz]

theorem compute_fear_greed_cal (comps : Table) (nrows mp : Nat) (w : Option Nat)
    (lq uq : Option ℚ) (ws : List (String × ℚ)) (intercept : ℚ)
    (hz : ¬ (fgScoreCols mp w lq uq comps).length = 0) :
    compute_fear_greed comps nrows mp w lq uq (some ws) intercept
      = (fgScoreCols mp w lq uq comps
          ++ [("FG_est_cal",
            (List.range nrows).map (fun i => some (calRow
              (ws.filter (fun kv =>
                ((fgScoreCols mp w lq uq comps).map Prod.fst).contains kv.1))
              intercept (fgScoreCols mp w lq uq comps) i)))],
        "FG_est_cal") := by
  simp only [compute_fear_greed]
  rw [if_neg hz]

/-- No spec component is named like a composite column, so the appended
composite column is the one found by name. -/
theorem fgScoreCols_name_ne (mp : Nat) (w : Option Nat) (lq uq : Option ℚ)
    (comps : Table) (nm : String) (hnm : nm ∉ FG_COMPONENT_SPECS.map Prod.fst) :
    ∀ p ∈ fgScoreCols mp w lq uq comps, p.1 ≠ nm := by
  intro p hp hcon
  exact hnm (hcon ▸ fgScoreCols_names mp w lq uq comps p hp)

/-- C4: range.  Every defined score emitted by `percentile_score` lies in
`[0, 100]`, and in unweighted (mean) mode every defined composite entry of
the `compute_fear_greed` output also lies in `[0, 100]`. -/
theorem C4_range :
    (∀ cfg : ScoreConfig, ∀ s : Col, ∀ t : Nat, ∀ x : ℚ,
      (percentile_score cfg s).getD t none = some x → 0 ≤ x ∧ x ≤ 100)
    ∧ (∀ comps : Table, ∀ nrows mp : Nat, ∀ w : Option Nat, ∀ lq uq : Option ℚ,
        ∀ i : Nat, ∀ m : ℚ, ∀ col : Col,
        lookupCol (compute_fear_greed comps nrows mp w lq uq none 0).1
            (compute_fear_greed comps nrows mp w lq uq none 0).2 = some col →
        col.getD i none = some m → 0 ≤ m ∧ m ≤ 100) := by
  constructor
  · exact percentile_score_range
  · intro comps nrows mp w lq uq i m col hlook hval
    by_cases hz : (fgScoreCols mp w lq uq comps).length = 0
    · rw [compute_fear_greed_empty comps nrows mp w lq uq none 0 hz] at hlook
      rw [lookupCol_append_last _ _ _
        (fgScoreCols_name_ne mp w lq uq comps "FG_est" (by decide))] at hlook
      rw [← Option.some.inj hlook] at hval
      have hrep : (List.replicate nrows (none : Option ℚ)).getD i none = none := by
        rw [List.getD_eq_getElem?_getD, List.getElem?_replicate]
        split <;> rfl
      rw [hrep] at hval
      exact Option.noConfusion hval
    · rw [compute_fear_greed_mean comps nrows mp w lq uq 0 hz] at hlook
      rw [lookupCol_append_last _ _ _
        (fgScoreCols_name_ne mp w lq uq comps "FG_est_mean" (by decide))] at hlook
      rw [← Option.some.inj hlook] at hval
      by_cases hi : i < nrows
      · rw [getD_range_map _ _ _ _ hi] at hval
        exact meanRow_bounds _ i m
          (fun p hp x hx => fgScoreCols_entry_range mp w lq uq comps p hp i x hx) hval
      · have hlen : ((List.range nrows).map
            (fun j => meanRow (fgScoreCols mp w lq uq comps) j)).length ≤ i := by
          simpa using Nat.le_of_not_lt hi
        rw [List.getD_eq_getElem?_getD, List.getElem?_eq_none hlen] at hval
        exact Option.noConfusion hval

/-- Witness for C4: a concrete defined score and a concrete defined mean
composite, both shown to lie in `[0, 100]` by the theorem. -/
theorem C4_range_witness :
    (0 ≤ (75 : ℚ) ∧ (75 : ℚ) ≤ 100) ∧ (0 ≤ (0 : ℚ) ∧ (0 : ℚ) ≤ 100) :=
  ⟨C4_range.1 cfgTwo [some 5, some 5] 1 75 (by decide),
    C4_range.2 [("hy_spread", [some 1, some 2])] 2 1 none (some (1 / 100))
      (some (99 / 100)) 1 0 [some 0, some 0] (by decide) (by decide)⟩

/-- C5: aggregation modes.  In unweighted mode the composite entry of every
in-range row is the arithmetic mean of the non-missing component scores of
that row (missing excluded, an all-missing row gives a missing composite);
in calibrated mode it is `intercept + Σ weight·score` over the weight-map
keys present among the computed score columns (unknown keys ignored),
whenever those scores are defined. -/
theorem C5_aggregation_modes (comps : Table) (nrows mp : Nat) (w : Option Nat)
    (lq uq : Option ℚ) (ws : List (String × ℚ)) (intercept : ℚ) (i : Nat)
    (hz : ¬ (fgScoreCols mp w lq uq comps).length = 0) (hi : i < nrows) :
    (∀ col : Col,
      lookupCol (compute_fear_greed comps nrows mp w lq uq none 0).1
          (compute_fear_greed comps nrows mp w lq uq none 0).2 = some col →
      col.getD i none
        = (if rowVals (fgScoreCols mp w lq uq comps) i = [] then none
            else some ((rowVals (fgScoreCols mp w lq uq comps) i).sum
              / ((rowVals (fgScoreCols mp w lq uq comps) i).length : ℚ))))
    ∧ (∀ col : Col, ∀ f : String → ℚ,
      lookupCol (compute_fear_greed comps nrows mp w lq uq (some ws) intercept).1
          (compute_fear_greed comps nrows mp w lq uq (some ws) intercept).2 = some col →
      (∀ kv ∈ ws.filter (fun kv =>
          ((fgScoreCols mp w lq uq comps).map Prod.fst).contains kv.1),
        (lookupCol (fgScoreCols mp w lq uq comps) kv.1).bind (fun c => c.getD i none)
          = some (f kv.1)) →
      col.getD i none
        = some (intercept + ((ws.filter (fun kv =>
            ((fgScoreCols mp w lq uq comps).map Prod.fst).contains kv.1)).map
              (fun kv => kv.2 * f kv.1)).sum)) := by
  constructor
  · intro col hlook
    rw [compute_fear_greed_mean comps nrows mp w lq uq 0 hz] at hlook
    rw [lookupCol_append_last _ _ _
      (fgScoreCols_name_ne mp w lq uq comps "FG_est_mean" (by decide))] at hlook
    rw [← Option.some.inj hlook, getD_range_map _ _ _ _ hi]
    unfold meanRow rowVals
    by_cases hv : (fgScoreCols mp w lq uq comps).filterMap (fun c => c.2.getD i none) = []
    · rw [if_pos hv, if_pos (by rw [hv]; rfl)]
    · rw [if_neg hv, if_neg (by rwa [List.length_eq_zero])]
  · intro col f hlook hvals
    rw [compute_fear_greed_cal comps nrows mp w lq uq ws intercept hz] at hlook
    rw [lookupCol_append_last _ _ _
      (fgScoreCols_name_ne mp w lq uq comps "FG_est_cal" (by decide))] at hlook
    rw [← Option.some.inj hlook, getD_range_map _ _ _ _ hi]
    unfold calRow
    congr 1
    congr 1
    exact congrArg List.sum (List.map_congr_left (fun kv hkv => by rw [hvals kv hkv]))

/-- C10: in calibrated mode a missing component score contributes nothing to
the weighted sum, so the calibrated composite is defined at every in-range
row; a row where every weighted score is missing yields exactly the
intercept, while (unlike calibrated mode) the unweighted composite of a row
with no defined component score is missing. -/
theorem C10_calibrated_total (comps : Table) (nrows mp : Nat) (w : Option Nat)
    (lq uq : Option ℚ) (ws : List (String × ℚ)) (intercept : ℚ) (i : Nat)
    (hz : ¬ (fgScoreCols mp w lq uq comps).length = 0) (hi : i < nrows) :
    (∀ col : Col,
      lookupCol (compute_fear_greed comps nrows mp w lq uq (some ws) intercept).1
          (compute_fear_greed comps nrows mp w lq uq (some ws) intercept).2 = some col →
      (∃ q : ℚ, col.getD i none = some q)
      ∧ ((∀ kv ∈ ws.filter (fun kv =>
            ((fgScoreCols mp w lq uq comps).map Prod.fst).contains kv.1),
          (lookupCol (fgScoreCols mp w lq uq comps) kv.1).bind (fun c => c.getD i none)
            = none) →
        col.getD i none = some intercept))
    ∧ (rowVals (fgScoreCols mp w lq uq comps) i = [] →
      ∀ colm : Col,
        lookupCol (compute_fear_greed comps nrows mp w lq uq none 0).1
            (compute_fear_greed comps nrows mp w lq uq none 0).2 = some colm →
        colm.getD i none = none) := by
  constructor
  · intro col hlook
    rw [compute_fear_greed_cal comps nrows mp w lq uq ws intercept hz] at hlook
    rw [lookupCol_append_last _ _ _
      (fgScoreCols_name_ne mp w lq uq comps "FG_est_cal" (by decide))] at hlook
    rw [← Option.some.inj hlook, getD_range_map _ _ _ _ hi]
    constructor
    · exact ⟨_, rfl⟩
    · intro hmiss
      unfold calRow
      have hzero : ((ws.filter (fun kv =>
          ((fgScoreCols mp w lq uq comps).map Prod.fst).contains kv.1)).map
            (fun kv => match (lookupCol (fgScoreCols mp w lq uq comps) kv.1).bind
                (fun c => c.getD i none) with
              | some v => kv.2 * v
              | none => 0)).sum = 0 := by
        apply List.sum_eq_zero
        intro x hx
        rw [List.mem_map] at hx
        obtain ⟨kv, hkv, hxv⟩ := hx
        rw [hmiss kv hkv] at hxv
        exact hxv.symm
      rw [hzero, add_zero]
  · intro hmiss colm hlook
    rw [compute_fear_greed_mean comps nrows mp w lq uq 0 hz] at hlook
    rw [lookupCol_append_last _ _ _
      (fgScoreCols_name_ne mp w lq uq comps "FG_est_mean" (by decide))] at hlook
    rw [← Option.some.inj hlook, getD_range_map _ _ _ _ hi]
    unfold meanRow
    rw [if_pos]
    rw [show (fgScoreCols mp w lq uq comps).filterMap (fun c => c.2.getD i none)
      = rowVals (fgScoreCols mp w lq uq comps) i from rfl, hmiss]
    rfl

/-- Concrete component table with two available components. -/
def compsW : Table := [("hy_spread", [some 1, some 2]), ("put_call", [some 1, none])]

/-- Concrete component table with one component missing at the second row. -/
def compsX : Table := [("hy_spread", [some 1, none])]

/-- Witness for C5 at a concrete component table, weight map (with an
unknown key) and row. -/
theorem C5_aggregation_modes_witness :
    (([some 0, some 0] : Col).getD 1 none
      = (if rowVals (fgScoreCols 1 none (some (1 / 100)) (some (99 / 100)) compsW) 1 = []
          then none
          else some
            ((rowVals (fgScoreCols 1 none (some (1 / 100)) (some (99 / 100)) compsW) 1).sum
              / ((rowVals (fgScoreCols 1 none (some (1 / 100)) (some (99 / 100)) compsW)
                  1).length : ℚ))))
    ∧ (([some 10, some 10] : Col).getD 1 none
      = some (10 + (([(("hy_spread" : String), (1 : ℚ) / 2), ("zzz", 7)].filter (fun kv =>
          ((fgScoreCols 1 none (some (1 / 100)) (some (99 / 100)) compsW).map
            Prod.fst).contains kv.1)).map (fun kv => kv.2 * 0)).sum)) :=
  ⟨(C5_aggregation_modes compsW 2 1 none (some (1 / 100)) (some (99 / 100))
      [("hy_spread", 1 / 2), ("zzz", 7)] 10 1 (by decide) (by decide)).1
      [some 0, some 0] (by decide),
    (C5_aggregation_modes compsW 2 1 none (some (1 / 100)) (some (99 / 100))
      [("hy_spread", 1 / 2), ("zzz", 7)] 10 1 (by decide) (by decide)).2
      [some 10, some 10] (fun _ => 0) (by decide) (by decide)⟩

/-- Witness for C10 at a concrete component table whose only score is
missing at the second row: the calibrated composite is still defined there
(and equals the intercept), while the unweighted composite is missing. -/
theorem C10_calibrated_total_witness :
    ((∃ q : ℚ, ([some 10, some 10] : Col).getD 1 none = some q)
      ∧ ((∀ kv ∈ [(("hy_spread" : String), (1 : ℚ) / 2)].filter (fun kv =>
            ((fgScoreCols 1 none (some (1 / 100)) (some (99 / 100)) compsX).map
              Prod.fst).contains kv.1),
          (lookupCol (fgScoreCols 1 none (some (1 / 100)) (some (99 / 100)) compsX)
            kv.1).bind (fun c => c.getD 1 none) = none) →
        ([some 10, some 10] : Col).getD 1 none = some 10))
    ∧ (([some 0, none] : Col).getD 1 none = none) :=
  ⟨(C10_calibrated_total compsX 2 1 none (some (1 / 100)) (some (99 / 100))
      [("hy_spread", 1 / 2)] 10 1 (by decide) (by decide)).1
      [some 10, some 10] (by decide),
    (C10_calibrated_total compsX 2 1 none (some (1 / 100)) (some (99 / 100))
      [("hy_spread", 1 / 2)] 10 1 (by decide) (by decide)).2
      (by decide) [some 0, none] (by decide)⟩

/-! ### Component derivation (`compute_components`, src/utils.py 278-365) -/

/-- Mirrors `Series.rolling(wsize, min_periods=mp).mean()`: at each row the
mean of the non-missing values among the last `wsize` positions, missing
when fewer than `mp` of them are present. -/
def rollingMean (wsize mp : Nat) (s : Col) : Col :=
  (List.range s.length).map (fun i =>
    let win := dropna ((s.take (i + 1)).drop (i + 1 - wsize))
    if win.length < mp then none else some (win.sum / (win.length : ℚ)))

/-- Mirrors `Series.pct_change(n)` (no fill): `s[i]/s[i-n] - 1`, missing on
the first `n` rows and whenever either endpoint is missing. -/
def pctChange (n : Nat) (s : Col) : Col :=
  (List.range s.length).map (fun i =>
    if i < n then none
    else
      match s.getD i none, s.getD (i - n) none with
      | some a, some b => some (a / b - 1)
      | _, _ => none)

/-- Pointwise combination of two columns with NaN propagation (pandas
elementwise series arithmetic). -/
def zipCol (f : ℚ → ℚ → ℚ) (a b : Col) (n : Nat) : Col :=
  (List.range n).map (fun i =>
    match a.getD i none, b.getD i none with
    | some x, some y => some (f x y)
    | _, _ => none)

/-- The alias lists of the five required market series
(`src/utils.py` lines 302-308). -/
def componentAliases : List (String × List String) :=
  [("spx", ["spx", "^GSPC"]), ("vix", ["vix", "^VIX"]), ("tlt", ["tlt", "TLT"]),
   ("rsp", ["rsp", "RSP"]), ("hyg", ["hyg", "HYG"])]

/-- Mirrors `_pick_col`: the first alias present among the column names. -/
def pickCol (colNames : List String) (candidates : List String) : Option String :=
  candidates.find? (fun c => colNames.contains c)

/-- The required series that resolve to no column, in alias-table order
(the `missing` list of `src/utils.py` lines 322-324). -/
def missingSeries (df : Table) : List String :=
  componentAliases.filterMap (fun a =>
    if (pickCol (df.map Prod.fst) a.2).isSome then none else some a.1)

/-- A required column resolved through its alias list (all-missing fallback
is never reached when resolution succeeded). -/
def resolveCol (df : Table) (nrows : Nat) (candidates : List String) : Col :=
  match (pickCol (df.map Prod.fst) candidates).bind (lookupCol df) with
  | some c => c
  | none => List.replicate nrows none

/-- The eight derived component columns (`src/utils.py` lines 336-363). -/
def componentTable (df : Table) (nrows : Nat) : Table :=
  let spx := resolveCol df nrows ["spx", "^GSPC"]
  let vix := resolveCol df nrows ["vix", "^VIX"]
  let tlt := resolveCol df nrows ["tlt", "TLT"]
  let rsp := resolveCol df nrows ["rsp", "RSP"]
  let hyg := resolveCol df nrows ["hyg", "HYG"]
  [("momentum_spx", zipCol (fun s m => (s - m) / m) spx (rollingMean 125 60 spx) nrows),
   ("strength_proxy", zipCol (fun s m => (s - m) / m) spx (rollingMean 200 80 spx) nrows),
   ("breadth_rsp_spx",
     zipCol (fun a b => a - b) (pctChange 60 rsp) (pctChange 60 spx) nrows),
   ("junk_bond_mom_20d", pctChange 20 hyg),
   ("hy_spread",
     if (df.map Prod.fst).contains "HY_spread"
       then (lookupCol df "HY_spread").getD (List.replicate nrows none)
       else List.replicate nrows none),
   ("vix_rel", zipCol (fun v m => (v - m) / m) vix (rollingMean 50 20 vix) nrows),
   ("safe_haven_20d",
     zipCol (fun a b => a - b) (pctChange 20 spx) (pctChange 20 tlt) nrows),
   ("put_call",
     if (df.map Prod.fst).contains "put_call"
       then (lookupCol df "put_call").getD (List.replicate nrows none)
       else List.replicate nrows none)]

/-- Mirrors `compute_components` (`src/utils.py` lines 278-365) on a panel
with `nrows` rows: fails with the list of absent required series names and
the list of available columns when any required series is unresolvable;
otherwise produces the component table, with absent optional inputs turned
into all-missing columns. -/
def compute_components (df : Table) (nrows : Nat) :
    Except (List String × List String) Table :=
  if missingSeries df = [] then Except.ok (componentTable df nrows)
  else Except.error (missingSeries df, df.map Prod.fst)

/-- C8: component derivation error policy.  `compute_components` fails if
and only if at least one required series (resolved through its alias list)
is absent; on failure the error names exactly the absent required series
and lists the available columns; on success an absent optional series
(credit spread, put/call) yields an all-missing component column. -/
theorem C8_missing_series (df : Table) (nrows : Nat) :
    ((∃ e, compute_components df nrows = Except.error e) ↔ missingSeries df ≠ [])
    ∧ (∀ m avail : List String, compute_components df nrows = Except.error (m, avail) →
        m = missingSeries df ∧ avail = df.map Prod.fst)
    ∧ (∀ out : Table, compute_components df nrows = Except.ok out →
        (¬ (df.map Prod.fst).contains "HY_spread" = true →
          lookupCol out "hy_spread" = some (List.replicate nrows none))
        ∧ (¬ (df.map Prod.fst).contains "put_call" = true →
          lookupCol out "put_call" = some (List.replicate nrows none))) := by
  by_cases hm : missingSeries df = []
  · refine ⟨⟨?_, fun h => absurd hm h⟩, ?_, ?_⟩
    · rintro ⟨e, he⟩
      rw [compute_components, if_pos hm] at he
      exact Except.noConfusion he
    · intro m avail h
      rw [compute_components, if_pos hm] at h
      exact Except.noConfusion h
    · intro out h
      rw [compute_components, if_pos hm] at h
      have hout := Except.ok.inj h
      subst hout
      constructor
      · intro hopt
        have hfind : lookupCol (componentTable df nrows) "hy_spread"
            = some (if (df.map Prod.fst).contains "HY_spread" = true
                then (lookupCol df "HY_spread").getD (List.replicate nrows none)
                else List.replicate nrows none) := rfl
        rw [hfind, if_neg hopt]
      · intro hopt
        have hfind : lookupCol (componentTable df nrows) "put_call"
            = some (if (df.map Prod.fst).contains "put_call" = true
                then (lookupCol df "put_call").getD (List.replicate nrows none)
                else List.replicate nrows none) := rfl
        rw [hfind, if_neg hopt]
  · refine ⟨⟨fun _ => hm, ?_⟩, ?_, ?_⟩
    · intro _
      exact ⟨(missingSeries df, df.map Prod.fst), by rw [compute_components, if_neg hm]⟩
    · intro m avail h
      rw [compute_components, if_neg hm] at h
      have := Except.error.inj h
      exact ⟨congrArg Prod.fst this.symm, congrArg Prod.snd this.symm⟩
    · intro out h
      rw [compute_components, if_neg hm] at h
      exact Except.noConfusion h

/-- Concrete panel missing four of the five required series. -/
def dfMissing : Table := [("spx", [some 1]), ("HY_spread", [some 2])]

/-- Concrete panel with all required series and no optional ones. -/
def dfFull : Table :=
  [("spx", [some 1]), ("vix", [some 1]), ("tlt", [some 1]),
   ("rsp", [some 1]), ("hyg", [some 1])]

/-- Witness for C8: a panel lacking four required series errors with exactly
those names plus the available columns, and a panel lacking only optional
series yields all-missing optional component columns. -/
theorem C8_missing_series_witness :
    (∃ e, compute_components dfMissing 1 = Except.error e)
    ∧ ((["vix", "tlt", "rsp", "hyg"] : List String) = missingSeries dfMissing
        ∧ (["spx", "HY_spread"] : List String) = dfMissing.map Prod.fst)
    ∧ lookupCol (componentTable dfFull 1) "hy_spread" = some (List.replicate 1 none)
    ∧ lookupCol (componentTable dfFull 1) "put_call" = some (List.replicate 1 none) :=
  ⟨(C8_missing_series dfMissing 1).1.mpr (by decide),
   (C8_missing_series dfMissing 1).2.1 ["vix", "tlt", "rsp", "hyg"]
     ["spx", "HY_spread"] rfl,
   ((C8_missing_series dfFull 1).2.2 (componentTable dfFull 1) rfl).1 (by decide),
   ((C8_missing_series dfFull 1).2.2 (componentTable dfFull 1) rfl).2 (by decide)⟩

/-! ### Orchestrator (`get_fgi_estimation`, src/fg_core.py 43-101)

The data-acquisition and model-loading collaborators are out of scope: the
panel `df` stands for the `build_raw_indicators` output and `model` for the
`load_model` output (`none` when `use_calibrated_model` is off). -/

/-- The composite column produced by the pipeline for a given panel-derived
component table. -/
def fgColumn (comps : Table) (nrows : Nat) (model : Option (List (String × ℚ) × ℚ))
    (mp : Nat) (w : Option Nat) (lq uq : Option ℚ) : Col :=
  let res := compute_fear_greed comps nrows mp w lq uq (model.map Prod.fst)
    ((model.map Prod.snd).getD 0)
  (lookupCol res.1 res.2).getD (List.replicate nrows none)

/-- The output columns of `get_fgi_estimation`: `raw_`-prefixed components,
`score_`-prefixed component scores (composite column dropped), and the
composite renamed `FG_estimation`; only the latter when `with_components`
is off. -/
def outputColumns (comps : Table) (nrows : Nat) (model : Option (List (String × ℚ) × ℚ))
    (mp : Nat) (w : Option Nat) (lq uq : Option ℚ) (wc : Bool) : Table :=
  let res := compute_fear_greed comps nrows mp w lq uq (model.map Prod.fst)
    ((model.map Prod.snd).getD 0)
  let fgcol := (lookupCol res.1 res.2).getD (List.replicate nrows none)
  if wc then
    comps.map (fun p => ("raw_" ++ p.1, p.2))
      ++ (res.1.filter (fun p => !(p.1 == res.2))).map
          (fun p => ("score_" ++ p.1, p.2))
      ++ [("FG_estimation", fgcol)]
  else [("FG_estimation", fgcol)]

/-- The cells of row `i` of a table. -/
def rowCells (tbl : Table) (i : Nat) : List (String × Option ℚ) :=
  tbl.map (fun p => (p.1, p.2.getD i none))

/-- The row mask of `get_fgi_estimation`: composite defined
(`dropna(subset=["FG_estimation"])`) and date within the requested span. -/
def keepRow (fgcol : Col) (dates : List ℕ) (start_ts end_ts : ℕ) (i : Nat) : Bool :=
  (fgcol.getD i none).isSome && decide (start_ts ≤ dates.getD i 0)
    && decide (dates.getD i 0 ≤ end_ts)

/-- Mirrors `get_fgi_estimation` (`src/fg_core.py` lines 43-101) after the
excluded I/O collaborators: derive components, score and aggregate them,
assemble the output columns, then keep exactly the rows whose composite is
defined and whose date lies in `[start_ts, end_ts]`, returned as
(date, cells) pairs in index order. -/
def get_fgi_estimation (dates : List ℕ) (df : Table) (start_ts end_ts : ℕ)
    (wc : Bool) (model : Option (List (String × ℚ) × ℚ))
    (mp : Nat) (w : Option Nat) (lq uq : Option ℚ) :
    Except (List String × List String) (List (ℕ × List (String × Option ℚ))) :=
  match compute_components df dates.length with
  | Except.error e => Except.error e
  | Except.ok comps =>
    let fgcol := fgColumn comps dates.length model mp w lq uq
    let cols := outputColumns comps dates.length model mp w lq uq wc
    Except.ok ((List.range dates.length).filterMap (fun i =>
      if keepRow fgcol dates start_ts end_ts i
        then some (dates.getD i 0, rowCells cols i)
        else none))

/-- Modelled from the spec's words (claim C9): the spec keeps every span row
except the leading rows lacking a defined composite ("any leading rows
lacking a defined composite dropped and all other rows of the span
retained"); this lists the dates that reading predicts. -/
def specRetainedDates (dates : List ℕ) (df : Table) (start_ts end_ts : ℕ)
    (model : Option (List (String × ℚ) × ℚ))
    (mp : Nat) (w : Option Nat) (lq uq : Option ℚ) :
    Except (List String × List String) (List ℕ) :=
  match compute_components df dates.length with
  | Except.error e => Except.error e
  | Except.ok comps =>
    let fgcol := fgColumn comps dates.length model mp w lq uq
    Except.ok (((((List.range dates.length).filter (fun i =>
        decide (start_ts ≤ dates.getD i 0) && decide (dates.getD i 0 ≤ end_ts)))).dropWhile
      (fun i => (fgcol.getD i none).isNone)).map (fun i => dates.getD i 0))

theorem map_fst_filterMap_keep {β : Type} (l : List Nat) (c : Nat → Bool)
    (g : Nat → ℕ) (h : Nat → β) :
    ((l.filterMap (fun i => if c i then some (g i, h i) else none)).map Prod.fst)
      = (l.filter c).map g := by
  induction l with
  | nil => rfl
  | cons a l ih => cases hc : c a <;> simp [hc, ih]

/-- Concrete panel for C9: all required series flat, optional spread present
at rows 0 and 2 but missing at row 1, so with a one-observation warm-up the
composite is defined at rows 0 and 2 and missing at the non-leading row 1. -/
def dfC9 : Table :=
  [("spx", [some 1, some 1, some 1]), ("vix", [some 1, some 1, some 1]),
   ("tlt", [some 1, some 1, some 1]), ("rsp", [some 1, some 1, some 1]),
   ("hyg", [some 1, some 1, some 1]), ("HY_spread", [some 1, none, some 2])]

/-- Counterexample to C9 as stated: on `dfC9` over the full span `[0, 2]`,
the code also drops the non-leading row `1` (its composite is missing),
returning dates `[0, 2]`, while the claim ("any leading rows lacking a
defined composite dropped and all other rows of the span retained")
predicts `[0, 1, 2]`. -/
theorem C9_output_shaping_cex :
    get_fgi_estimation [0, 1, 2] dfC9 0 2 false none 1 none
        (some (1 / 100)) (some (99 / 100))
      = Except.ok [(0, [("FG_estimation", some 0)]), (2, [("FG_estimation", some 0)])]
    ∧ ([((0 : ℕ), [(("FG_estimation" : String), some (0 : ℚ))]),
        (2, [("FG_estimation", some 0)])].map Prod.fst) = [0, 2]
    ∧ specRetainedDates [0, 1, 2] dfC9 0 2 none 1 none
        (some (1 / 100)) (some (99 / 100)) = Except.ok [0, 1, 2]
    ∧ ([0, 2] : List ℕ) ≠ [0, 1, 2] :=
  ⟨rfl, rfl, rfl, by decide⟩

/-- C9 (amended): whenever component derivation succeeds, the orchestrator
returns exactly the rows of the scored table whose composite is defined and
whose date lies within `[start_ts, end_ts]` — every row lacking a defined
composite is dropped, not only the leading ones — in index order, each row
carrying the date and the cells of the output columns (raw components
optionally included, the component score columns, and the composite). -/
theorem C9_output_shaping (dates : List ℕ) (df : Table) (start_ts end_ts : ℕ)
    (wc : Bool) (model : Option (List (String × ℚ) × ℚ)) (mp : Nat) (w : Option Nat)
    (lq uq : Option ℚ) (comps : Table) (out : List (ℕ × List (String × Option ℚ)))
    (hc : compute_components df dates.length = Except.ok comps)
    (h : get_fgi_estimation dates df start_ts end_ts wc model mp w lq uq
      = Except.ok out) :
    out.map Prod.fst
      = ((List.range dates.length).filter
          (keepRow (fgColumn comps dates.length model mp w lq uq) dates
            start_ts end_ts)).map (fun i => dates.getD i 0)
    ∧ ∀ p ∈ out, ∃ i : Nat, i < dates.length
        ∧ keepRow (fgColumn comps dates.length model mp w lq uq) dates
            start_ts end_ts i = true
        ∧ p = (dates.getD i 0,
            rowCells (outputColumns comps dates.length model mp w lq uq wc) i) := by
  rw [get_fgi_estimation, hc] at h
  have hout := (Except.ok.inj h).symm
  subst hout
  constructor
  · exact map_fst_filterMap_keep _ _ _ _
  · intro p hp
    rw [List.mem_filterMap] at hp
    obtain ⟨i, hi, hpi⟩ := hp
    refine ⟨i, List.mem_range.mp hi, ?_, ?_⟩
    · by_contra hk
      rw [if_neg hk] at hpi
      exact Option.noConfusion hpi
    · cases hk : keepRow (fgColumn comps dates.length model mp w lq uq) dates
          start_ts end_ts i
      · rw [if_neg (by simp [hk])] at hpi
        exact Option.noConfusion hpi
      · rw [if_pos (by simp [hk])] at hpi
        exact (Option.some.inj hpi).symm

/-- Witness for the amended C9 at the concrete panel `dfC9`. -/
theorem C9_output_shaping_witness :
    ([((0 : ℕ), [(("FG_estimation" : String), some (0 : ℚ))]),
        (2, [("FG_estimation", some 0)])].map Prod.fst
      = ((List.range ([0, 1, 2] : List ℕ).length).filter
          (keepRow (fgColumn (componentTable dfC9 3) ([0, 1, 2] : List ℕ).length
            none 1 none (some (1 / 100)) (some (99 / 100))) [0, 1, 2] 0 2)).map
        (fun i => ([0, 1, 2] : List ℕ).getD i 0))
    ∧ ∀ p ∈ [((0 : ℕ), [(("FG_estimation" : String), some (0 : ℚ))]),
        (2, [("FG_estimation", some 0)])], ∃ i : Nat, i < ([0, 1, 2] : List ℕ).length
        ∧ keepRow (fgColumn (componentTable dfC9 3) ([0, 1, 2] : List ℕ).length
            none 1 none (some (1 / 100)) (some (99 / 100))) [0, 1, 2] 0 2 i = true
        ∧ p = (([0, 1, 2] : List ℕ).getD i 0,
            rowCells (outputColumns (componentTable dfC9 3) ([0, 1, 2] : List ℕ).length
              none 1 none (some (1 / 100)) (some (99 / 100)) false) i) :=
  C9_output_shaping [0, 1, 2] dfC9 0 2 false none 1 none (some (1 / 100))
    (some (99 / 100)) (componentTable dfC9 3)
    [(0, [("FG_estimation", some 0)]), (2, [("FG_estimation", some 0)])] rfl rfl

/-! ### Order-statistic infrastructure for the winsorization claim (C7) -/

/-- Number of entries at most `z`. -/
def cntLE (xs : List ℚ) (z : ℚ) : Nat := (xs.filter (fun x => x ≤ z)).length

/-- Number of entries strictly below `z`. -/
def cntLT (xs : List ℚ) (z : ℚ) : Nat := (xs.filter (fun x => x < z)).length

/-- The sorted copy of a sample used by `quantile`. -/
def sortOf (xs : List ℚ) : List ℚ := xs.insertionSort (· ≤ ·)

theorem sortOf_sorted (xs : List ℚ) : (sortOf xs).Sorted (· ≤ ·) :=
  List.sorted_insertionSort _ xs

theorem sortOf_perm (xs : List ℚ) : List.Perm (sortOf xs) xs :=
  List.perm_insertionSort _ xs

theorem sortOf_length (xs : List ℚ) : (sortOf xs).length = xs.length :=
  (sortOf_perm xs).length_eq

theorem cntLE_perm {xs ys : List ℚ} (h : List.Perm xs ys) (z : ℚ) : cntLE xs z = cntLE ys z :=
  (h.filter _).length_eq

theorem cntLT_perm {xs ys : List ℚ} (h : List.Perm xs ys) (z : ℚ) : cntLT xs z = cntLT ys z :=
  (h.filter _).length_eq

theorem cntLE_cons (w : ℚ) (l : List ℚ) (z : ℚ) :
    cntLE (w :: l) z = (if w ≤ z then 1 else 0) + cntLE l z := by
  unfold cntLE
  rw [List.filter_cons]
  split <;> rename_i hw <;> simp at hw <;> simp [hw, Nat.add_comm]

theorem cntLT_cons (w : ℚ) (l : List ℚ) (z : ℚ) :
    cntLT (w :: l) z = (if w < z then 1 else 0) + cntLT l z := by
  unfold cntLT
  rw [List.filter_cons]
  split <;> rename_i hw <;> simp at hw <;> simp [hw, Nat.add_comm]

theorem cntLE_mono_val (xs : List ℚ) {z1 z2 : ℚ} (h : z1 ≤ z2) :
    cntLE xs z1 ≤ cntLE xs z2 := by
  unfold cntLE
  rw [← List.countP_eq_length_filter, ← List.countP_eq_length_filter]
  refine List.countP_mono_left (fun x _ hx => ?_)
  simp only [decide_eq_true_eq] at hx ⊢
  exact le_trans hx h

theorem cntLE_le_cntLT_val (xs : List ℚ) {z1 z2 : ℚ} (h : z1 < z2) :
    cntLE xs z1 ≤ cntLT xs z2 := by
  unfold cntLE cntLT
  rw [← List.countP_eq_length_filter, ← List.countP_eq_length_filter]
  refine List.countP_mono_left (fun x _ hx => ?_)
  simp only [decide_eq_true_eq] at hx ⊢
  exact lt_of_le_of_lt hx h

theorem cntLT_le_cntLE (xs : List ℚ) (z : ℚ) : cntLT xs z ≤ cntLE xs z := by
  unfold cntLE cntLT
  rw [← List.countP_eq_length_filter, ← List.countP_eq_length_filter]
  refine List.countP_mono_left (fun x _ hx => ?_)
  simp only [decide_eq_true_eq] at hx ⊢
  exact le_of_lt hx

theorem cntLT_lt_cntLE_of_mem {xs : List ℚ} {v : ℚ} (h : v ∈ xs) :
    cntLT xs v < cntLE xs v := by
  have hsplit := length_filter_le_split xs v
  have hone : 1 ≤ (xs.filter (fun x => x = v)).length := by
    have hmem : v ∈ xs.filter (fun x => x = v) := by
      rw [List.mem_filter]
      exact ⟨h, by simp⟩
    exact List.length_pos.mpr (List.ne_nil_of_mem hmem)
  unfold cntLT cntLE
  omega

theorem cntLE_le_length (xs : List ℚ) (z : ℚ) : cntLE xs z ≤ xs.length :=
  List.length_filter_le _ _

theorem cntLT_le_length (xs : List ℚ) (z : ℚ) : cntLT xs z ≤ xs.length :=
  List.length_filter_le _ _

theorem sorted_getD_mono {P : List ℚ} (hP : P.Sorted (· ≤ ·)) {i j : Nat}
    (hij : i ≤ j) (hj : j < P.length) : P.getD i 0 ≤ P.getD j 0 := by
  rcases eq_or_lt_of_le hij with h | h
  · subst h; exact le_refl _
  · rw [List.getD_eq_getElem _ _ (lt_trans h hj), List.getD_eq_getElem _ _ hj]
    exact List.Sorted.rel_get_of_lt hP (a := ⟨i, lt_trans h hj⟩) (b := ⟨j, hj⟩) h

/-- Characterization of order statistics: in a sorted list, the entry at
position `i` is at most `z` exactly when more than `i` entries are at most
`z`. -/
theorem sorted_getD_le_iff {P : List ℚ} (hP : P.Sorted (· ≤ ·)) {i : Nat}
    (hi : i < P.length) (z : ℚ) : P.getD i 0 ≤ z ↔ i < cntLE P z := by
  unfold cntLE
  rw [← List.countP_eq_length_filter]
  constructor
  · intro h
    have hall : ∀ x ∈ P.take (i + 1), decide (x ≤ z) = true := by
      intro x hx
      obtain ⟨j, hj, hjx⟩ := List.getElem_of_mem hx
      rw [List.getElem_take] at hjx
      have hjlen : j < i + 1 := by
        have := hj
        rw [List.length_take] at this
        omega
      simp only [decide_eq_true_eq]
      calc x = P[j] := hjx.symm
        _ ≤ P.getD i 0 := by
            have hjP : j < P.length := by
              have := hj
              rw [List.length_take] at this
              omega
            rw [← List.getD_eq_getElem P 0 hjP]
            exact sorted_getD_mono hP (by omega) hi
        _ ≤ z := h
    have h1 : (P.take (i + 1)).countP (fun x => decide (x ≤ z)) = i + 1 := by
      rw [List.countP_eq_length.mpr hall, List.length_take]
      omega
    have h2 := List.Sublist.countP_le (fun x => decide (x ≤ z)) (List.take_sublist (i + 1) P)
    omega
  · intro h
    by_contra hc
    push_neg at hc
    have hdrop : (P.drop i).countP (fun x => decide (x ≤ z)) = 0 := by
      rw [List.countP_eq_zero]
      intro x hx
      obtain ⟨j, hj, hjx⟩ := List.getElem_of_mem hx
      rw [List.getElem_drop] at hjx
      simp only [decide_eq_true_eq, not_le]
      have hij : i + j < P.length := by
        have := hj
        rw [List.length_drop] at this
        omega
      calc z < P.getD i 0 := hc
        _ ≤ P.getD (i + j) 0 := sorted_getD_mono hP (by omega) hij
        _ = P[i + j] := List.getD_eq_getElem P 0 hij
        _ = x := hjx
    have hsplit : P.countP (fun x => decide (x ≤ z))
        = (P.take i).countP (fun x => decide (x ≤ z))
          + (P.drop i).countP (fun x => decide (x ≤ z)) := by
      rw [← List.countP_append, List.take_append_drop]
    have h3 := List.countP_le_length (p := fun x => decide (x ≤ z)) (l := P.take i)
    rw [List.length_take] at h3
    omega

/-- Dual characterization: the entry at position `i` is at least `z` exactly
when at most `i` entries are strictly below `z`. -/
theorem sorted_le_getD_iff {P : List ℚ} (hP : P.Sorted (· ≤ ·)) {i : Nat}
    (hi : i < P.length) (z : ℚ) : z ≤ P.getD i 0 ↔ cntLT P z ≤ i := by
  unfold cntLT
  rw [← List.countP_eq_length_filter]
  constructor
  · intro h
    have hdrop : (P.drop i).countP (fun x => decide (x < z)) = 0 := by
      rw [List.countP_eq_zero]
      intro x hx
      obtain ⟨j, hj, hjx⟩ := List.getElem_of_mem hx
      rw [List.getElem_drop] at hjx
      simp only [decide_eq_true_eq, not_lt]
      have hij : i + j < P.length := by
        have := hj
        rw [List.length_drop] at this
        omega
      calc z ≤ P.getD i 0 := h
        _ ≤ P.getD (i + j) 0 := sorted_getD_mono hP (by omega) hij
        _ = P[i + j] := List.getD_eq_getElem P 0 hij
        _ = x := hjx
    have hsplit : P.countP (fun x => decide (x < z))
        = (P.take i).countP (fun x => decide (x < z))
          + (P.drop i).countP (fun x => decide (x < z)) := by
      rw [← List.countP_append, List.take_append_drop]
    have h3 := List.countP_le_length (p := fun x => decide (x < z)) (l := P.take i)
    rw [List.length_take] at h3
    omega
  · intro h
    by_contra hc
    push_neg at hc
    have hall : ∀ x ∈ P.take (i + 1), decide (x < z) = true := by
      intro x hx
      obtain ⟨j, hj, hjx⟩ := List.getElem_of_mem hx
      rw [List.getElem_take] at hjx
      have hjlen : j < i + 1 := by
        have := hj
        rw [List.length_take] at this
        omega
      have hjP : j < P.length := by
        have := hj
        rw [List.length_take] at this
        omega
      simp only [decide_eq_true_eq]
      calc x = P[j] := hjx.symm
        _ = P.getD j 0 := (List.getD_eq_getElem P 0 hjP).symm
        _ ≤ P.getD i 0 := sorted_getD_mono hP (by omega) hi
        _ < z := hc
    have h1 : (P.take (i + 1)).countP (fun x => decide (x < z)) = i + 1 := by
      rw [List.countP_eq_length.mpr hall, List.length_take]
      omega
    have h2 := List.Sublist.countP_le (fun x => decide (x < z)) (List.take_sublist (i + 1) P)
    omega

theorem sorted_lt_getD_iff {P : List ℚ} (hP : P.Sorted (· ≤ ·)) {i : Nat}
    (hi : i < P.length) (z : ℚ) : z < P.getD i 0 ↔ cntLE P z ≤ i := by
  rw [← not_le, ← Nat.not_lt, not_iff_not]
  exact sorted_getD_le_iff hP hi z

theorem sorted_getD_lt_iff {P : List ℚ} (hP : P.Sorted (· ≤ ·)) {i : Nat}
    (hi : i < P.length) (z : ℚ) : P.getD i 0 < z ↔ i < cntLT P z := by
  rw [← not_le, ← Nat.not_le, not_iff_not]
  exact sorted_le_getD_iff hP hi z

/-- `sortOf` version of the characterizations, with the counts taken on the
original sample. -/
theorem sortOf_getD_le_iff (xs : List ℚ) {i : Nat} (hi : i < xs.length) (z : ℚ) :
    (sortOf xs).getD i 0 ≤ z ↔ i < cntLE xs z := by
  rw [sorted_getD_le_iff (sortOf_sorted xs) (by rwa [sortOf_length]) z,
    cntLE_perm (sortOf_perm xs)]

theorem sortOf_le_getD_iff (xs : List ℚ) {i : Nat} (hi : i < xs.length) (z : ℚ) :
    z ≤ (sortOf xs).getD i 0 ↔ cntLT xs z ≤ i := by
  rw [sorted_le_getD_iff (sortOf_sorted xs) (by rwa [sortOf_length]) z,
    cntLT_perm (sortOf_perm xs)]

theorem sortOf_lt_getD_iff (xs : List ℚ) {i : Nat} (hi : i < xs.length) (z : ℚ) :
    z < (sortOf xs).getD i 0 ↔ cntLE xs z ≤ i := by
  rw [sorted_lt_getD_iff (sortOf_sorted xs) (by rwa [sortOf_length]) z,
    cntLE_perm (sortOf_perm xs)]

theorem sortOf_getD_lt_iff (xs : List ℚ) {i : Nat} (hi : i < xs.length) (z : ℚ) :
    (sortOf xs).getD i 0 < z ↔ i < cntLT xs z := by
  rw [sorted_getD_lt_iff (sortOf_sorted xs) (by rwa [sortOf_length]) z,
    cntLT_perm (sortOf_perm xs)]

theorem perm_cons_eraseIdx (xs : List ℚ) (m : Nat) (hm : m < xs.length) :
    List.Perm xs (xs.getD m 0 :: xs.eraseIdx m) := by
  conv_lhs => rw [← List.take_append_drop m xs, List.drop_eq_getElem_cons hm]
  rw [List.eraseIdx_eq_take_drop_succ, ← List.getD_eq_getElem xs 0 hm]
  exact List.perm_middle

theorem perm_set_cons (xs : List ℚ) (m : Nat) (hm : m < xs.length) (y' : ℚ) :
    List.Perm (xs.set m y') (y' :: xs.eraseIdx m) := by
  rw [List.set_eq_take_append_cons_drop, if_pos hm, List.eraseIdx_eq_take_drop_succ]
  exact List.perm_middle

theorem cntLE_set (xs : List ℚ) (m : Nat) (hm : m < xs.length) (y' z : ℚ) :
    cntLE (xs.set m y') z + (if xs.getD m 0 ≤ z then 1 else 0)
      = cntLE xs z + (if y' ≤ z then 1 else 0) := by
  rw [cntLE_perm (perm_set_cons xs m hm y'), cntLE_cons,
    cntLE_perm (perm_cons_eraseIdx xs m hm), cntLE_cons]
  omega

theorem cntLT_set (xs : List ℚ) (m : Nat) (hm : m < xs.length) (y' z : ℚ) :
    cntLT (xs.set m y') z + (if xs.getD m 0 < z then 1 else 0)
      = cntLT xs z + (if y' < z then 1 else 0) := by
  rw [cntLT_perm (perm_set_cons xs m hm y'), cntLT_cons,
    cntLT_perm (perm_cons_eraseIdx xs m hm), cntLT_cons]
  omega

/-- Increasing one entry never decreases how many entries exceed a level. -/
theorem cntLE_set_le (xs : List ℚ) (m : Nat) (hm : m < xs.length) {y' : ℚ}
    (h : xs.getD m 0 ≤ y') (z : ℚ) : cntLE (xs.set m y') z ≤ cntLE xs z := by
  have hkey := cntLE_set xs m hm y' z
  by_cases h2 : y' ≤ z
  · rw [if_pos (le_trans h h2), if_pos h2] at hkey
    omega
  · rw [if_neg h2] at hkey
    by_cases h1 : xs.getD m 0 ≤ z
    · rw [if_pos h1] at hkey
      omega
    · rw [if_neg h1] at hkey
      omega

/-- Replacing one entry with a larger value leaves the initial order
statistics unchanged, as long as the position looked at lies strictly below
the block of entries equal to the replaced value. -/
theorem sortOf_set_prefix (xs : List ℚ) (m : Nat) (hm : m < xs.length) (y' : ℚ)
    (hyy : xs.getD m 0 ≤ y') {i : Nat} (hi : i < xs.length)
    (hi1 : i + 1 < cntLE xs (xs.getD m 0)) :
    (sortOf (xs.set m y')).getD i 0 = (sortOf xs).getD i 0 := by
  have hlen : (xs.set m y').length = xs.length := List.length_set xs m y'
  have hi' : i < (xs.set m y').length := by rwa [hlen]
  apply le_antisymm
  · -- new order statistic at most the old one
    set v := (sortOf xs).getD i 0 with hv
    have h1 : i < cntLE xs v := (sortOf_getD_le_iff xs hi v).mp (le_refl v)
    have hkey := cntLE_set xs m hm y' v
    rw [sortOf_getD_le_iff (xs.set m y') (by rwa [hlen]) v]
    by_cases hcase : xs.getD m 0 ≤ v
    · have h2 : cntLE xs (xs.getD m 0) ≤ cntLE xs v := cntLE_mono_val xs hcase
      rw [if_pos hcase] at hkey
      by_cases h3 : y' ≤ v
      · rw [if_pos h3] at hkey
        omega
      · rw [if_neg h3] at hkey
        omega
    · by_cases h3 : y' ≤ v
      · exact absurd (le_trans hyy h3) hcase
      · rw [if_neg hcase, if_neg h3] at hkey
        omega
  · -- old order statistic at most the new one
    set u := (sortOf (xs.set m y')).getD i 0 with hu
    have h1 : i < cntLE (xs.set m y') u := by
      rw [← sortOf_getD_le_iff (xs.set m y') (by rwa [hlen]) u]
    have h2 : cntLE (xs.set m y') u ≤ cntLE xs u := cntLE_set_le xs m hm hyy u
    rw [sortOf_getD_le_iff xs hi u]
    omega

theorem ratFloor_eq (q : ℚ) : Rat.floor q = ⌊q⌋ := rfl

theorem ratCeil_eq (q : ℚ) : Rat.ceil q = ⌈q⌉ := by
  by_cases hd : q.den = 1
  · have hq : (q.num : ℚ) = q := (Rat.den_eq_one_iff q).mp hd
    have hceil : ⌈q⌉ = q.num := by
      conv_lhs => rw [← hq]
      exact Int.ceil_intCast q.num
    unfold Rat.ceil
    rw [if_pos hd, hceil]
  · have h1 : Rat.ceil q = Rat.floor q + 1 := by
      unfold Rat.ceil Rat.floor
      rw [if_neg hd, if_neg hd]
    rw [h1, ratFloor_eq]
    have hne : q ≠ ((⌊q⌋ : ℤ) : ℚ) := by
      intro hcon
      apply hd
      rw [hcon]
      exact Rat.den_intCast ⌊q⌋
    have hlt : ⌊q⌋ < ⌈q⌉ := by
      rcases lt_or_eq_of_le (Int.floor_le_ceil q) with h | h
      · exact h
      · exfalso
        apply hne
        refine le_antisymm ?_ (Int.floor_le q)
        have h2 := Int.le_ceil q
        rw [← h] at h2
        exact_mod_cast h2
    have hle : ⌈q⌉ ≤ ⌊q⌋ + 1 := Int.ceil_le_floor_add_one q
    omega

/-- The quantile expressed through `sortOf` and the integer floor/ceiling. -/
theorem quantile_expand (xs : List ℚ) (q : ℚ) :
    quantile xs q
      = (sortOf xs).getD (⌊q * ((xs.length : ℚ) - 1)⌋).toNat 0
        + (q * ((xs.length : ℚ) - 1) - ((⌊q * ((xs.length : ℚ) - 1)⌋ : ℤ) : ℚ))
          * ((sortOf xs).getD (⌈q * ((xs.length : ℚ) - 1)⌉).toNat 0
            - (sortOf xs).getD (⌊q * ((xs.length : ℚ) - 1)⌋).toNat 0) := by
  simp only [quantile, sortOf, ratFloor_eq, ratCeil_eq]

/-- Floor and ceiling positions used by `quantile` stay within the sample. -/
theorem quantile_pos_bounds (xs : List ℚ) (q : ℚ) (hq0 : 0 ≤ q) (hq1 : q ≤ 1)
    (hn : 1 ≤ xs.length) :
    (0 : ℤ) ≤ ⌊q * ((xs.length : ℚ) - 1)⌋
    ∧ (⌈q * ((xs.length : ℚ) - 1)⌉).toNat < xs.length
    ∧ (⌊q * ((xs.length : ℚ) - 1)⌋).toNat ≤ (⌈q * ((xs.length : ℚ) - 1)⌉).toNat
    ∧ (⌈q * ((xs.length : ℚ) - 1)⌉).toNat ≤ (⌊q * ((xs.length : ℚ) - 1)⌋).toNat + 1 := by
  have hn1 : (0 : ℚ) ≤ (xs.length : ℚ) - 1 := by
    have : (1 : ℚ) ≤ (xs.length : ℚ) := by exact_mod_cast hn
    linarith
  have hh0 : (0 : ℚ) ≤ q * ((xs.length : ℚ) - 1) := mul_nonneg hq0 hn1
  have hfl0 : (0 : ℤ) ≤ ⌊q * ((xs.length : ℚ) - 1)⌋ := Int.floor_nonneg.mpr hh0
  have hh1 : q * ((xs.length : ℚ) - 1) ≤ (xs.length : ℚ) - 1 := by
    nlinarith
  have hceil : ⌈q * ((xs.length : ℚ) - 1)⌉ ≤ (xs.length : ℤ) - 1 := by
    apply Int.ceil_le.mpr
    push_cast
    exact hh1
  have hfc := Int.floor_le_ceil (q * ((xs.length : ℚ) - 1))
  have hcf := Int.ceil_le_floor_add_one (q * ((xs.length : ℚ) - 1))
  refine ⟨hfl0, ?_, ?_, ?_⟩ <;> omega

/-- The quantile lies between the two order statistics it interpolates. -/
theorem quantile_between (xs : List ℚ) (q : ℚ) (hq0 : 0 ≤ q) (hq1 : q ≤ 1)
    (hn : 1 ≤ xs.length) :
    (sortOf xs).getD (⌊q * ((xs.length : ℚ) - 1)⌋).toNat 0 ≤ quantile xs q
    ∧ quantile xs q ≤ (sortOf xs).getD (⌈q * ((xs.length : ℚ) - 1)⌉).toNat 0 := by
  obtain ⟨hfl0, hkh, hkk, _⟩ := quantile_pos_bounds xs q hq0 hq1 hn
  have hkh' : (⌈q * ((xs.length : ℚ) - 1)⌉).toNat < (sortOf xs).length := by
    rwa [sortOf_length]
  have hab : (sortOf xs).getD (⌊q * ((xs.length : ℚ) - 1)⌋).toNat 0
      ≤ (sortOf xs).getD (⌈q * ((xs.length : ℚ) - 1)⌉).toNat 0 :=
    sorted_getD_mono (sortOf_sorted xs) hkk hkh'
  have hf0 : (0 : ℚ) ≤ q * ((xs.length : ℚ) - 1) - ((⌊q * ((xs.length : ℚ) - 1)⌋ : ℤ) : ℚ) := by
    have := Int.floor_le (q * ((xs.length : ℚ) - 1))
    linarith
  have hf1 : q * ((xs.length : ℚ) - 1) - ((⌊q * ((xs.length : ℚ) - 1)⌋ : ℤ) : ℚ) ≤ 1 := by
    have := Int.lt_floor_add_one (q * ((xs.length : ℚ) - 1))
    push_cast at this ⊢
    linarith
  rw [quantile_expand]
  constructor
  · nlinarith
  · nlinarith

/-- Monotonicity of the linear-interpolation quantile in the probability. -/
theorem quantile_mono (xs : List ℚ) {q1 q2 : ℚ} (hq0 : 0 ≤ q1) (h12 : q1 ≤ q2)
    (hq1 : q2 ≤ 1) (hn : 1 ≤ xs.length) : quantile xs q1 ≤ quantile xs q2 := by
  have hn1 : (0 : ℚ) ≤ (xs.length : ℚ) - 1 := by
    have : (1 : ℚ) ≤ (xs.length : ℚ) := by exact_mod_cast hn
    linarith
  have hhle : q1 * ((xs.length : ℚ) - 1) ≤ q2 * ((xs.length : ℚ) - 1) :=
    mul_le_mul_of_nonneg_right h12 hn1
  obtain ⟨hfl1, hkh1, hkk1, hone1⟩ := quantile_pos_bounds xs q1 hq0 (le_trans h12 hq1) hn
  obtain ⟨hfl2, hkh2, hkk2, hone2⟩ := quantile_pos_bounds xs q2 (le_trans hq0 h12) hq1 hn
  by_cases hc : (⌈q1 * ((xs.length : ℚ) - 1)⌉).toNat ≤ (⌊q2 * ((xs.length : ℚ) - 1)⌋).toNat
  · have h1 := (quantile_between xs q1 hq0 (le_trans h12 hq1) hn).2
    have h2 := (quantile_between xs q2 (le_trans hq0 h12) hq1 hn).1
    have hmid : (sortOf xs).getD (⌈q1 * ((xs.length : ℚ) - 1)⌉).toNat 0
        ≤ (sortOf xs).getD (⌊q2 * ((xs.length : ℚ) - 1)⌋).toNat 0 := by
      apply sorted_getD_mono (sortOf_sorted xs) hc
      rw [sortOf_length]
      have := Int.floor_le_ceil (q2 * ((xs.length : ℚ) - 1))
      omega
    linarith
  · -- both probabilities interpolate inside the same segment
    have hfe : ⌊q1 * ((xs.length : ℚ) - 1)⌋ = ⌊q2 * ((xs.length : ℚ) - 1)⌋ := by
      have hmono := Int.floor_le_floor (α := ℚ) hhle
      have hc1 := Int.ceil_le_floor_add_one (q1 * ((xs.length : ℚ) - 1))
      have hc2 := Int.floor_le_ceil (q1 * ((xs.length : ℚ) - 1))
      omega
    have hce : ⌈q1 * ((xs.length : ℚ) - 1)⌉ = ⌈q2 * ((xs.length : ℚ) - 1)⌉ := by
      have hmono := Int.ceil_le_ceil (α := ℚ) hhle
      have hc1 := Int.ceil_le_floor_add_one (q2 * ((xs.length : ℚ) - 1))
      have hc2 := Int.floor_le_ceil (q1 * ((xs.length : ℚ) - 1))
      have hc3 := Int.floor_le_ceil (q2 * ((xs.length : ℚ) - 1))
      omega
    rw [quantile_expand, quantile_expand, hfe, hce]
    have hab : (sortOf xs).getD (⌊q2 * ((xs.length : ℚ) - 1)⌋).toNat 0
        ≤ (sortOf xs).getD (⌈q2 * ((xs.length : ℚ) - 1)⌉).toNat 0 := by
      apply sorted_getD_mono (sortOf_sorted xs) hkk2
      rwa [sortOf_length]
    have hsub : ((⌊q2 * ((xs.length : ℚ) - 1)⌋ : ℤ) : ℚ) ≤ ((⌊q2 * ((xs.length : ℚ) - 1)⌋ : ℤ) : ℚ) := le_refl _
    nlinarith

theorem getD_mem (xs : List ℚ) {i : Nat} (hi : i < xs.length) : xs.getD i 0 ∈ xs := by
  rw [List.getD_eq_getElem xs 0 hi]
  exact List.getElem_mem hi

theorem getD_mem_eraseIdx (xs : List ℚ) (m i : Nat) (hi : i < xs.length) (hne : i ≠ m) :
    xs.getD i 0 ∈ xs.eraseIdx m := by
  rw [List.eraseIdx_eq_take_drop_succ, List.getD_eq_getElem xs 0 hi]
  rcases Nat.lt_or_ge i m with h | h
  · apply List.mem_append_left
    have hlen : i < (xs.take m).length := by
      rw [List.length_take]
      omega
    have hg : (xs.take m)[i] = xs[i] := List.getElem_take ..
    rw [← hg]
    exact List.getElem_mem hlen
  · have hgt : m < i := lt_of_le_of_ne h (Ne.symm hne)
    apply List.mem_append_right
    have hg : (xs.drop (m + 1))[i - m - 1]? = some xs[i] := by
      rw [List.getElem?_drop, show m + 1 + (i - m - 1) = i from by omega]
      exact List.getElem?_eq_getElem hi
    obtain ⟨hlt, hEq⟩ := List.getElem?_eq_some_iff.mp hg
    rw [← hEq]
    exact List.getElem_mem hlt

/-- Value translation between the old and new winsorization bounds: the old
lower bound moves to the new lower bound, the old upper bound to the new
upper bound, strictly interior values stay put. -/
def clipShift (L H L' H' w : ℚ) : ℚ :=
  if w = H then H' else if w = L then L' else w

/-- After increasing the entry at `m` (which dominates both old and new
upper bounds), clipping at the new bounds is the `clipShift` image of
clipping at the old bounds, provided every other entry falls on the same
side of the old and new bounds. -/
theorem winsorize_set_eq_map (xs : List ℚ) (m : Nat) (hm : m < xs.length)
    (y' L H L' H' : ℚ)
    (hLH : L ≤ H) (hLH' : L' ≤ H')
    (hiff : L = H ↔ L' = H')
    (hyH : H ≤ xs.getD m 0) (hyH' : H' ≤ y')
    (helem : ∀ i : Nat, i < xs.length → i ≠ m →
      ((xs.getD i 0 ≤ L ↔ xs.getD i 0 ≤ L')
        ∧ (H ≤ xs.getD i 0 ↔ H' ≤ xs.getD i 0))) :
    winsorize L' H' (xs.set m y') = (winsorize L H xs).map (clipShift L H L' H') := by
  apply List.ext_getElem
  · simp [winsorize]
  · intro i h1 h2
    have hiN : i < xs.length := by
      simpa [winsorize] using h1
    simp only [winsorize, List.getElem_map, List.getElem_set]
    by_cases him : m = i
    · rw [if_pos him]
      subst him
      have hy2 : xs.getD m 0 = xs[m] := List.getD_eq_getElem xs 0 hm
      rw [hy2] at hyH
      have hcl1 : min (max xs[m] L) H = H := by
        have h3 : H ≤ max xs[m] L := le_trans hyH (le_max_left _ _)
        exact min_eq_right h3
      have hcl2 : min (max y' L') H' = H' := by
        have h3 : H' ≤ max y' L' := le_trans hyH' (le_max_left _ _)
        exact min_eq_right h3
      rw [hcl1, hcl2, clipShift, if_pos rfl]
    · rw [if_neg him]
      have hv := helem i hiN (fun h => him h.symm)
      rw [List.getD_eq_getElem xs 0 hiN] at hv
      obtain ⟨hvL, hvH⟩ := hv
      rcases le_or_lt xs[i] L with h3 | h3
      · have h4 : xs[i] ≤ L' := hvL.mp h3
        have hcl1 : min (max xs[i] L) H = L := by
          rw [max_eq_right h3]
          exact min_eq_left hLH
        have hcl2 : min (max xs[i] L') H' = L' := by
          rw [max_eq_right h4]
          exact min_eq_left hLH'
        rw [hcl1, hcl2]
        by_cases h5 : L = H
        · rw [clipShift, if_pos h5, hiff.mp h5]
        · rw [clipShift, if_neg h5, if_pos rfl]
      · rcases lt_or_le xs[i] H with h4 | h4
        · have h5 : ¬ xs[i] ≤ L' := fun hc => absurd (hvL.mpr hc) (not_le.mpr h3)
          have h6 : ¬ H' ≤ xs[i] := fun hc => absurd (hvH.mpr hc) (not_le.mpr h4)
          have hcl1 : min (max xs[i] L) H = xs[i] := by
            rw [max_eq_left (le_of_lt h3)]
            exact min_eq_left (le_of_lt h4)
          have hcl2 : min (max xs[i] L') H' = xs[i] := by
            rw [max_eq_left (le_of_lt (not_le.mp h5))]
            exact min_eq_left (le_of_lt (not_le.mp h6))
          rw [hcl1, hcl2, clipShift, if_neg (ne_of_lt h4), if_neg (ne_of_gt h3)]
        · have h5 : H' ≤ xs[i] := hvH.mp h4
          have hcl1 : min (max xs[i] L) H = H := by
            rw [max_eq_left (le_trans hLH h4)]
            exact min_eq_right h4
          have hcl2 : min (max xs[i] L') H' = H' := by
            rw [max_eq_left (le_trans hLH' h5)]
            exact min_eq_right h5
          rw [hcl1, hcl2, clipShift, if_pos rfl]

/-- Values reachable by the old clip: the old upper bound, the old lower
bound (when distinct), or an interior value strictly inside both the old and
the new bounds. -/
def GoodVal (L H L' H' w : ℚ) : Prop :=
  w = H ∨ (w ≠ H ∧ w = L) ∨ (L < w ∧ w < H ∧ L' < w ∧ w < H')

theorem clipShift_H (L H L' H' : ℚ) : clipShift L H L' H' H = H' := if_pos rfl

theorem clipShift_L (L H L' H' : ℚ) (h : L ≠ H) : clipShift L H L' H' L = L' := by
  rw [clipShift, if_neg h, if_pos rfl]

theorem clipShift_mid (L H L' H' w : ℚ) (h1 : L < w) (h2 : w < H) :
    clipShift L H L' H' w = w := by
  rw [clipShift, if_neg (ne_of_lt h2), if_neg (ne_of_gt h1)]

/-- `clipShift` preserves strict order and equality between good values. -/
theorem clipShift_rel (L H L' H' : ℚ) (hLH : L ≤ H) (hLH' : L' ≤ H')
    (hiff : L = H ↔ L' = H') (w1 w2 : ℚ)
    (h1 : GoodVal L H L' H' w1) (h2 : GoodVal L H L' H' w2) :
    (w1 < w2 ↔ clipShift L H L' H' w1 < clipShift L H L' H' w2)
    ∧ (w1 = w2 ↔ clipShift L H L' H' w1 = clipShift L H L' H' w2) := by
  have hstrict : L < H → L' < H' := fun h =>
    lt_of_le_of_ne hLH' (fun he => (ne_of_lt h) (hiff.mpr he))
  rcases h1 with h1 | ⟨h1a, h1b⟩ | ⟨h1a, h1b, h1c, h1d⟩ <;>
    rcases h2 with h2 | ⟨h2a, h2b⟩ | ⟨h2a, h2b, h2c, h2d⟩
  · rw [h1, h2, clipShift_H]
    exact ⟨⟨fun h => absurd h (lt_irrefl H), fun h => absurd h (lt_irrefl H')⟩,
      ⟨fun _ => rfl, fun _ => rfl⟩⟩
  · have hne : L ≠ H := h2b ▸ h2a
    have hLlt : L < H := lt_of_le_of_ne hLH hne
    have hLlt' : L' < H' := hstrict hLlt
    rw [h1, h2b, clipShift_H, clipShift_L _ _ _ _ hne]
    constructor
    · exact ⟨fun h => absurd h (not_lt.mpr (le_of_lt hLlt)),
        fun h => absurd h (not_lt.mpr (le_of_lt hLlt'))⟩
    · exact ⟨fun h => absurd h.symm (ne_of_lt hLlt),
        fun h => absurd h.symm (ne_of_lt hLlt')⟩
  · rw [h1, clipShift_H, clipShift_mid _ _ _ _ _ h2a h2b]
    constructor
    · exact ⟨fun h => absurd h (not_lt.mpr (le_of_lt h2b)),
        fun h => absurd h (not_lt.mpr (le_of_lt h2d))⟩
    · exact ⟨fun h => absurd h.symm (ne_of_lt h2b),
        fun h => absurd h.symm (ne_of_lt h2d)⟩
  · have hne : L ≠ H := h1b ▸ h1a
    have hLlt : L < H := lt_of_le_of_ne hLH hne
    have hLlt' : L' < H' := hstrict hLlt
    rw [h2, h1b, clipShift_H, clipShift_L _ _ _ _ hne]
    exact ⟨iff_of_true hLlt hLlt', ⟨fun h => absurd h (ne_of_lt hLlt),
      fun h => absurd h (ne_of_lt hLlt')⟩⟩
  · have hne : L ≠ H := h1b ▸ h1a
    rw [h1b, h2b, clipShift_L _ _ _ _ hne]
    exact ⟨⟨fun h => absurd h (lt_irrefl L), fun h => absurd h (lt_irrefl L')⟩,
      ⟨fun _ => rfl, fun _ => rfl⟩⟩
  · have hne : L ≠ H := h1b ▸ h1a
    rw [h1b, clipShift_L _ _ _ _ hne, clipShift_mid _ _ _ _ _ h2a h2b]
    exact ⟨iff_of_true h2a h2c, ⟨fun h => absurd h.symm (ne_of_gt h2a),
      fun h => absurd h.symm (ne_of_gt h2c)⟩⟩
  · rw [h2, clipShift_H, clipShift_mid _ _ _ _ _ h1a h1b]
    exact ⟨iff_of_true h1b h1d, ⟨fun h => absurd h (ne_of_lt h1b),
      fun h => absurd h (ne_of_lt h1d)⟩⟩
  · have hne : L ≠ H := h2b ▸ h2a
    rw [h2b, clipShift_L _ _ _ _ hne, clipShift_mid _ _ _ _ _ h1a h1b]
    constructor
    · exact ⟨fun h => absurd h (not_lt.mpr (le_of_lt h1a)),
        fun h => absurd h (not_lt.mpr (le_of_lt h1c))⟩
    · exact ⟨fun h => absurd h (ne_of_gt h1a), fun h => absurd h (ne_of_gt h1c)⟩
  · rw [clipShift_mid _ _ _ _ _ h1a h1b, clipShift_mid _ _ _ _ _ h2a h2b]
    exact ⟨Iff.rfl, Iff.rfl⟩

/-- Mapping a sample through `clipShift` leaves the pandas rank of the last
element unchanged when every value in the sample is good. -/
theorem rankPctLast_map_clipShift (W : List ℚ) (L H L' H' : ℚ) (hW : W ≠ [])
    (hLH : L ≤ H) (hLH' : L' ≤ H') (hiff : L = H ↔ L' = H')
    (hGood : ∀ w ∈ W, GoodVal L H L' H' w) :
    rankPctLast (W.map (clipShift L H L' H')) = rankPctLast W := by
  rcases hlast : W.getLast? with _ | vl
  · exact absurd (List.getLast?_eq_none_iff.mp hlast) hW
  · have hvlW : vl ∈ W := by
      have h1 := List.getLast?_eq_getLast W hW
      rw [hlast] at h1
      rw [Option.some.inj h1]
      exact List.getLast_mem hW
    have hmaplast : (W.map (clipShift L H L' H')).getLast?
        = some (clipShift L H L' H' vl) := by
      rw [List.getLast?_map, hlast]
      rfl
    simp only [rankPctLast]
    rw [hlast, hmaplast]
    simp only [Option.getD_some]
    have hlt : (List.filter (fun x => decide (x < clipShift L H L' H' vl))
          (W.map (clipShift L H L' H'))).length
        = (List.filter (fun x => decide (x < vl)) W).length := by
      rw [← List.countP_eq_length_filter, ← List.countP_eq_length_filter,
        List.countP_map]
      apply List.countP_congr
      intro w hw
      have hrel := (clipShift_rel L H L' H' hLH hLH' hiff w vl
        (hGood w hw) (hGood vl hvlW)).1
      simp only [Function.comp_apply, decide_eq_true_eq]
      exact hrel.symm
    have heq2 : (List.filter (fun x => decide (x = clipShift L H L' H' vl))
          (W.map (clipShift L H L' H'))).length
        = (List.filter (fun x => decide (x = vl)) W).length := by
      rw [← List.countP_eq_length_filter, ← List.countP_eq_length_filter,
        List.countP_map]
      apply List.countP_congr
      intro w hw
      have hrel := (clipShift_rel L H L' H' hLH hLH' hiff w vl
        (hGood w hw) (hGood vl hvlW)).2
      simp only [Function.comp_apply, decide_eq_true_eq]
      exact hrel.symm
    rw [hlt, heq2, List.length_map]

/-- When both interpolation positions lie strictly inside the stable prefix,
increasing the entry at `m` leaves the quantile unchanged. -/
theorem quantile_set_of_prefix (xs : List ℚ) (m : Nat) (hm : m < xs.length)
    (q y' : ℚ) (hyy : xs.getD m 0 ≤ y')
    (hkk : (⌊q * ((xs.length : ℚ) - 1)⌋).toNat ≤ (⌈q * ((xs.length : ℚ) - 1)⌉).toNat)
    (hidx : (⌈q * ((xs.length : ℚ) - 1)⌉).toNat + 1 < cntLE xs (xs.getD m 0)) :
    quantile (xs.set m y') q = quantile xs q := by
  have hlen : (xs.set m y').length = xs.length := List.length_set xs m y'
  have hle_len := cntLE_le_length xs (xs.getD m 0)
  have hkh_len : (⌈q * ((xs.length : ℚ) - 1)⌉).toNat < xs.length := by omega
  have hkl_len : (⌊q * ((xs.length : ℚ) - 1)⌋).toNat < xs.length := by omega
  have e1 := sortOf_set_prefix xs m hm y' hyy hkh_len (by omega)
  have e2 := sortOf_set_prefix xs m hm y' hyy hkl_len (by omega)
  rw [quantile_expand, quantile_expand, hlen, e1, e2]

/-- Closed form of the quantile when its interpolation positions are the two
order statistics around position `a`. -/
theorem quantile_segment_form (xs : List ℚ) (q : ℚ) (a : Nat) (ha1 : 1 ≤ a)
    (hfloor : ⌊q * ((xs.length : ℚ) - 1)⌋ = (a : ℤ) - 1)
    (hceil : ⌈q * ((xs.length : ℚ) - 1)⌉ = (a : ℤ)) :
    quantile xs q
      = (sortOf xs).getD (a - 1) 0
        + (q * ((xs.length : ℚ) - 1) - ((a : ℚ) - 1))
          * ((sortOf xs).getD a 0 - (sortOf xs).getD (a - 1) 0) := by
  rw [quantile_expand, hfloor, hceil]
  have h1 : ((a : ℤ) - 1).toNat = a - 1 := by omega
  have h2 : ((a : ℤ)).toNat = a := by omega
  rw [h1, h2]
  push_cast
  ring

theorem getD_set_ne {α : Type} (l : List α) (m i : Nat) (a d : α) (hne : m ≠ i) :
    (l.set m a).getD i d = l.getD i d := by
  simp [List.getD, List.getElem?_set_ne hne]

set_option maxHeartbeats 1600000 in
/-- Increasing the entry at `m` when it already lies strictly above the upper
quantile: the new upper clip bound stays at or below the new value, collapse of
the two clip bounds is preserved in both directions, and every other entry
compares the same way to the old and the new bounds. -/
theorem quantile_set_upper (xs : List ℚ) (m : Nat) (hm : m < xs.length)
    (y y' lq uq : ℚ) (hy : xs.getD m 0 = y)
    (hq0 : 0 ≤ lq) (hq12 : lq ≤ uq) (hq1 : uq ≤ 1)
    (hyq : quantile xs uq < y) (hyy : y < y') :
    quantile (xs.set m y') uq ≤ y'
    ∧ (quantile xs lq = quantile xs uq ↔
        quantile (xs.set m y') lq = quantile (xs.set m y') uq)
    ∧ (∀ i : Nat, i < xs.length → i ≠ m →
        ((xs.getD i 0 ≤ quantile xs lq ↔ xs.getD i 0 ≤ quantile (xs.set m y') lq)
          ∧ (quantile xs uq ≤ xs.getD i 0 ↔ quantile (xs.set m y') uq ≤ xs.getD i 0))) := by
  have hn : 1 ≤ xs.length := by omega
  have hn1 : (0 : ℚ) ≤ (xs.length : ℚ) - 1 := by
    have h : (1 : ℚ) ≤ (xs.length : ℚ) := by exact_mod_cast hn
    linarith
  have hlen' : (xs.set m y').length = xs.length := List.length_set xs m y'
  have hyy' : xs.getD m 0 ≤ y' := by rw [hy]; exact le_of_lt hyy
  have huq0 : 0 ≤ uq := le_trans hq0 hq12
  have hlq1 : lq ≤ 1 := le_trans hq12 hq1
  obtain ⟨hflU0, hkhU_len, hkkU, hsegU⟩ := quantile_pos_bounds xs uq huq0 hq1 hn
  obtain ⟨hflL0, hkhL_len, hkkL, hsegL⟩ := quantile_pos_bounds xs lq hq0 hlq1 hn
  have hhle : lq * ((xs.length : ℚ) - 1) ≤ uq * ((xs.length : ℚ) - 1) :=
    mul_le_mul_of_nonneg_right hq12 hn1
  have hflLU : ⌊lq * ((xs.length : ℚ) - 1)⌋ ≤ ⌊uq * ((xs.length : ℚ) - 1)⌋ :=
    Int.floor_le_floor hhle
  have hclLU : ⌈lq * ((xs.length : ℚ) - 1)⌉ ≤ ⌈uq * ((xs.length : ℚ) - 1)⌉ :=
    Int.ceil_le_ceil hhle
  have hy_mem : y ∈ xs := by rw [← hy]; exact getD_mem xs hm
  have hklU_lt : (⌊uq * ((xs.length : ℚ) - 1)⌋).toNat < cntLT xs y := by
    by_contra hcon
    push_neg at hcon
    have h1 : y ≤ (sortOf xs).getD (⌊uq * ((xs.length : ℚ) - 1)⌋).toNat 0 :=
      (sortOf_le_getD_iff xs (by omega) y).mpr hcon
    have h2 := (quantile_between xs uq huq0 hq1 hn).1
    linarith
  have htie : cntLT xs y < cntLE xs y := cntLT_lt_cntLE_of_mem hy_mem
  have hcase_le : (⌈uq * ((xs.length : ℚ) - 1)⌉).toNat + 1 ≤ cntLE xs y := by omega
  rcases lt_or_eq_of_le hcase_le with hcase | hcase
  · -- Case 1: both interpolation positions stay inside the stable prefix and
    -- neither clip bound moves.
    have hqh' : quantile (xs.set m y') uq = quantile xs uq := by
      apply quantile_set_of_prefix xs m hm uq y' hyy' hkkU
      rw [hy]
      exact hcase
    have hql' : quantile (xs.set m y') lq = quantile xs lq := by
      apply quantile_set_of_prefix xs m hm lq y' hyy' hkkL
      rw [hy]
      omega
    rw [hqh', hql']
    exact ⟨le_of_lt (lt_trans hyq hyy), Iff.rfl, fun i hi hne => ⟨Iff.rfl, Iff.rfl⟩⟩
  · -- Case 2: the replaced entry is the unique value at the top of the tie
    -- block reached by the upper interpolation index.
    set a := (⌈uq * ((xs.length : ℚ) - 1)⌉).toNat with ha_def
    have hklU2 : (⌊uq * ((xs.length : ℚ) - 1)⌋).toNat = a - 1 ∧ 1 ≤ a := by omega
    obtain ⟨hklU_eq, ha1⟩ := hklU2
    have hcLE : cntLE xs y = a + 1 := by omega
    have hcLT : cntLT xs y = a := by omega
    have hflU_int : ⌊uq * ((xs.length : ℚ) - 1)⌋ = (a : ℤ) - 1 := by omega
    have hclU_int : ⌈uq * ((xs.length : ℚ) - 1)⌉ = (a : ℤ) := by omega
    have ha_len : a < xs.length := hkhU_len
    have ha1_len : a - 1 < xs.length := by omega
    have hPa : (sortOf xs).getD a 0 = y := by
      apply le_antisymm
      · exact (sortOf_getD_le_iff xs ha_len y).mpr (by omega)
      · exact (sortOf_le_getD_iff xs ha_len y).mpr (by omega)
    have hPm1_lt : (sortOf xs).getD (a - 1) 0 < y :=
      (sortOf_getD_lt_iff xs ha1_len y).mpr (by omega)
    have hP'm1 : (sortOf (xs.set m y')).getD (a - 1) 0 = (sortOf xs).getD (a - 1) 0 := by
      apply sortOf_set_prefix xs m hm y' hyy' ha1_len
      rw [hy]
      omega
    have hcLE' : cntLE (xs.set m y') y = a := by
      have hkey := cntLE_set xs m hm y' y
      rw [hy, if_pos (le_refl y), if_neg (not_le.mpr hyy)] at hkey
      omega
    have hcLEy' : cntLE (xs.set m y') y' = cntLE xs y' := by
      have hkey := cntLE_set xs m hm y' y'
      rw [if_pos hyy', if_pos (le_refl y')] at hkey
      omega
    have hcLEy'_ge : a + 1 ≤ cntLE xs y' := by
      have h := cntLE_mono_val xs (le_of_lt hyy)
      omega
    have hy_b0 : y < (sortOf (xs.set m y')).getD a 0 :=
      (sortOf_lt_getD_iff (xs.set m y') (by omega) y).mpr (by omega)
    have hb0_y' : (sortOf (xs.set m y')).getD a 0 ≤ y' :=
      (sortOf_getD_le_iff (xs.set m y') (by omega) y').mpr (by omega)
    have hflU_int' : ⌊uq * (((xs.set m y').length : ℚ) - 1)⌋ = (a : ℤ) - 1 := by
      rw [hlen']
      exact hflU_int
    have hclU_int' : ⌈uq * (((xs.set m y').length : ℚ) - 1)⌉ = (a : ℤ) := by
      rw [hlen']
      exact hclU_int
    have hqh_form := quantile_segment_form xs uq a ha1 hflU_int hclU_int
    rw [hPa] at hqh_form
    have hqh'_form := quantile_segment_form (xs.set m y') uq a ha1 hflU_int' hclU_int'
    rw [hlen', hP'm1] at hqh'_form
    have hfu_nonneg : ((a : ℚ) - 1) ≤ uq * ((xs.length : ℚ) - 1) := by
      have h := Int.floor_le (uq * ((xs.length : ℚ) - 1))
      rw [hflU_int] at h
      push_cast at h
      linarith
    have hfu_lt : uq * ((xs.length : ℚ) - 1) < (a : ℚ) := by
      have h := Int.lt_floor_add_one (uq * ((xs.length : ℚ) - 1))
      rw [hflU_int] at h
      push_cast at h
      linarith
    have hfu_pos : ((a : ℚ) - 1) < uq * ((xs.length : ℚ) - 1) := by
      rcases lt_or_eq_of_le hfu_nonneg with h | h
      · exact h
      · exfalso
        have hceq : ⌈uq * ((xs.length : ℚ) - 1)⌉ = (a : ℤ) - 1 := by
          rw [← h]
          have hc : ((a : ℚ) - 1) = (((a : ℤ) - 1 : ℤ) : ℚ) := by push_cast; ring
          rw [hc, Int.ceil_intCast]
        omega
    have hqh_gt : (sortOf xs).getD (a - 1) 0 < quantile xs uq := by
      rw [hqh_form]
      have hmul := mul_pos
        (show (0:ℚ) < uq * ((xs.length : ℚ) - 1) - ((a : ℚ) - 1) by linarith)
        (show (0:ℚ) < y - (sortOf xs).getD (a - 1) 0 by linarith)
      linarith [hmul]
    have hqh'_gt : (sortOf xs).getD (a - 1) 0 < quantile (xs.set m y') uq := by
      rw [hqh'_form]
      have hmul := mul_pos
        (show (0:ℚ) < uq * ((xs.length : ℚ) - 1) - ((a : ℚ) - 1) by linarith)
        (show (0:ℚ) < (sortOf (xs.set m y')).getD a 0 - (sortOf xs).getD (a - 1) 0 by
          linarith)
      linarith [hmul]
    have hqh'_le_b0 : quantile (xs.set m y') uq ≤ (sortOf (xs.set m y')).getD a 0 := by
      rw [hqh'_form]
      have hmul := mul_nonneg
        (show (0:ℚ) ≤ (a : ℚ) - uq * ((xs.length : ℚ) - 1) by linarith)
        (show (0:ℚ) ≤ (sortOf (xs.set m y')).getD a 0 - (sortOf xs).getD (a - 1) 0 by
          linarith)
      linarith [hmul]
    have hpart_a : quantile (xs.set m y') uq ≤ y' := le_trans hqh'_le_b0 hb0_y'
    have hvne : ∀ i : Nat, i < xs.length → i ≠ m → xs.getD i 0 ≠ y := by
      intro i hi hne hveq
      have hmem : y ∈ xs.eraseIdx m := by
        rw [← hveq]
        exact getD_mem_eraseIdx xs m i hi hne
      have h1 : cntLE xs y = 1 + cntLE (xs.eraseIdx m) y := by
        rw [cntLE_perm (perm_cons_eraseIdx xs m hm), cntLE_cons, hy, if_pos (le_refl y)]
      have h2 : cntLT xs y = cntLT (xs.eraseIdx m) y := by
        rw [cntLT_perm (perm_cons_eraseIdx xs m hm), cntLT_cons, hy, if_neg (lt_irrefl y)]
        omega
      have h3 := cntLT_lt_cntLE_of_mem hmem
      omega
    have hvle : ∀ i : Nat, i < xs.length → xs.getD i 0 < y →
        xs.getD i 0 ≤ (sortOf xs).getD (a - 1) 0 := by
      intro i hi hvy
      have h1 : cntLE xs (xs.getD i 0) ≤ cntLT xs y := cntLE_le_cntLT_val xs hvy
      have h2 : cntLT xs (xs.getD i 0) < cntLE xs (xs.getD i 0) :=
        cntLT_lt_cntLE_of_mem (getD_mem xs hi)
      exact (sortOf_le_getD_iff xs ha1_len (xs.getD i 0)).mpr (by omega)
    have hvge : ∀ i : Nat, i < xs.length → i ≠ m → y < xs.getD i 0 →
        (sortOf (xs.set m y')).getD a 0 ≤ xs.getD i 0 := by
      intro i hi hne hyv
      have hvmem : xs.getD i 0 ∈ xs.set m y' := by
        have h := getD_set_ne xs m i y' 0 (Ne.symm hne)
        rw [← h]
        exact getD_mem (xs.set m y') (by omega)
      have h1 : cntLE (xs.set m y') y ≤ cntLT (xs.set m y') (xs.getD i 0) :=
        cntLE_le_cntLT_val (xs.set m y') hyv
      have h2 := cntLT_lt_cntLE_of_mem hvmem
      exact (sortOf_getD_le_iff (xs.set m y') (by omega) (xs.getD i 0)).mpr (by omega)
    have huq_iff : ∀ i : Nat, i < xs.length → i ≠ m →
        (quantile xs uq ≤ xs.getD i 0 ↔ quantile (xs.set m y') uq ≤ xs.getD i 0) := by
      intro i hi hne
      rcases lt_or_gt_of_ne (hvne i hi hne) with hvy | hvy
      · have hv1 := hvle i hi hvy
        exact iff_of_false (by intro hcon; linarith [hqh_gt]) (by intro hcon; linarith [hqh'_gt])
      · have hv2 := hvge i hi hne hvy
        exact iff_of_true (by linarith [hyq]) (by linarith [hqh'_le_b0])
    rcases Nat.lt_or_ge (⌈lq * ((xs.length : ℚ) - 1)⌉).toNat a with hsubA | hsubB
    · -- Lower bound taken strictly inside the stable prefix: it does not move.
      have hql' : quantile (xs.set m y') lq = quantile xs lq := by
        apply quantile_set_of_prefix xs m hm lq y' hyy' hkkL
        rw [hy]
        omega
      have hql_le : quantile xs lq ≤ (sortOf xs).getD (a - 1) 0 := by
        have h1 := (quantile_between xs lq hq0 hlq1 hn).2
        have h2 : (sortOf xs).getD (⌈lq * ((xs.length : ℚ) - 1)⌉).toNat 0
            ≤ (sortOf xs).getD (a - 1) 0 := by
          apply sorted_getD_mono (sortOf_sorted xs) (by omega)
          rw [sortOf_length]
          omega
        linarith
      refine ⟨hpart_a, ?_, ?_⟩
      · exact iff_of_false (fun h => by linarith [hqh_gt])
          (fun h => by rw [hql'] at h; linarith [hqh'_gt])
      · intro i hi hne
        exact ⟨by rw [hql'], huq_iff i hi hne⟩
    · -- Lower bound interpolates on the same segment as the upper bound.
      have hclL_int : ⌈lq * ((xs.length : ℚ) - 1)⌉ = (a : ℤ) := by omega
      have hflL_int : ⌊lq * ((xs.length : ℚ) - 1)⌋ = (a : ℤ) - 1 := by omega
      have hflq_nonneg : ((a : ℚ) - 1) ≤ lq * ((xs.length : ℚ) - 1) := by
        have h := Int.floor_le (lq * ((xs.length : ℚ) - 1))
        rw [hflL_int] at h
        push_cast at h
        linarith
      have hflq_lt : lq * ((xs.length : ℚ) - 1) < (a : ℚ) := by
        have h := Int.lt_floor_add_one (lq * ((xs.length : ℚ) - 1))
        rw [hflL_int] at h
        push_cast at h
        linarith
      have hflL_int' : ⌊lq * (((xs.set m y').length : ℚ) - 1)⌋ = (a : ℤ) - 1 := by
        rw [hlen']
        exact hflL_int
      have hclL_int' : ⌈lq * (((xs.set m y').length : ℚ) - 1)⌉ = (a : ℤ) := by
        rw [hlen']
        exact hclL_int
      have hql_form := quantile_segment_form xs lq a ha1 hflL_int hclL_int
      rw [hPa] at hql_form
      have hql'_form := quantile_segment_form (xs.set m y') lq a ha1 hflL_int' hclL_int'
      rw [hlen', hP'm1] at hql'_form
      have hql_ge : (sortOf xs).getD (a - 1) 0 ≤ quantile xs lq := by
        rw [hql_form]
        have hmul := mul_nonneg
          (show (0:ℚ) ≤ lq * ((xs.length : ℚ) - 1) - ((a : ℚ) - 1) by linarith)
          (show (0:ℚ) ≤ y - (sortOf xs).getD (a - 1) 0 by linarith)
        linarith [hmul]
      have hql'_ge : (sortOf xs).getD (a - 1) 0 ≤ quantile (xs.set m y') lq := by
        rw [hql'_form]
        have hmul := mul_nonneg
          (show (0:ℚ) ≤ lq * ((xs.length : ℚ) - 1) - ((a : ℚ) - 1) by linarith)
          (show (0:ℚ) ≤ (sortOf (xs.set m y')).getD a 0 - (sortOf xs).getD (a - 1) 0 by
            linarith)
        linarith [hmul]
      have hql_lt_y : quantile xs lq < y := by
        rw [hql_form]
        have hmul := mul_pos
          (show (0:ℚ) < (a : ℚ) - lq * ((xs.length : ℚ) - 1) by linarith)
          (show (0:ℚ) < y - (sortOf xs).getD (a - 1) 0 by linarith)
        linarith [hmul]
      have hql'_lt_b0 : quantile (xs.set m y') lq < (sortOf (xs.set m y')).getD a 0 := by
        rw [hql'_form]
        have hmul := mul_pos
          (show (0:ℚ) < (a : ℚ) - lq * ((xs.length : ℚ) - 1) by linarith)
          (show (0:ℚ) < (sortOf (xs.set m y')).getD a 0 - (sortOf xs).getD (a - 1) 0 by
            linarith)
        linarith [hmul]
      refine ⟨hpart_a, ?_, ?_⟩
      · constructor
        · intro h
          rw [hql_form, hqh_form] at h
          have h2 : (lq * ((xs.length : ℚ) - 1) - ((a : ℚ) - 1)) * (y - (sortOf xs).getD (a - 1) 0)
              = (uq * ((xs.length : ℚ) - 1) - ((a : ℚ) - 1)) * (y - (sortOf xs).getD (a - 1) 0) := by
            linarith
          have h3 := mul_right_cancel₀
            (show y - (sortOf xs).getD (a - 1) 0 ≠ 0 from ne_of_gt (by linarith)) h2
          rw [hql'_form, hqh'_form, h3]
        · intro h
          rw [hql'_form, hqh'_form] at h
          have h2 : (lq * ((xs.length : ℚ) - 1) - ((a : ℚ) - 1))
                * ((sortOf (xs.set m y')).getD a 0 - (sortOf xs).getD (a - 1) 0)
              = (uq * ((xs.length : ℚ) - 1) - ((a : ℚ) - 1))
                * ((sortOf (xs.set m y')).getD a 0 - (sortOf xs).getD (a - 1) 0) := by
            linarith
          have h3 := mul_right_cancel₀
            (show (sortOf (xs.set m y')).getD a 0 - (sortOf xs).getD (a - 1) 0 ≠ 0 from
              ne_of_gt (by linarith)) h2
          rw [hql_form, hqh_form, h3]
      · intro i hi hne
        refine ⟨?_, huq_iff i hi hne⟩
        rcases lt_or_gt_of_ne (hvne i hi hne) with hvy | hvy
        · have hv1 := hvle i hi hvy
          exact iff_of_true (by linarith [hql_ge]) (by linarith [hql'_ge])
        · have hv2 := hvge i hi hne hvy
          exact iff_of_false (by intro hcon; linarith [hql_lt_y])
            (by intro hcon; linarith [hql'_lt_b0])

theorem cntLT_mono_val (xs : List ℚ) {z1 z2 : ℚ} (h : z1 ≤ z2) :
    cntLT xs z1 ≤ cntLT xs z2 := by
  unfold cntLT
  rw [← List.countP_eq_length_filter, ← List.countP_eq_length_filter]
  refine List.countP_mono_left (fun x _ hx => ?_)
  simp only [decide_eq_true_eq] at hx ⊢
  exact lt_of_lt_of_le hx h

/-- Replacing an entry with a smaller value can only grow the count of
entries at most any threshold. -/
theorem cntLE_set_ge (xs : List ℚ) (m : Nat) (hm : m < xs.length) {y' : ℚ}
    (h : y' ≤ xs.getD m 0) (z : ℚ) : cntLE xs z ≤ cntLE (xs.set m y') z := by
  have hkey := cntLE_set xs m hm y' z
  by_cases h2 : xs.getD m 0 ≤ z
  · rw [if_pos h2, if_pos (le_trans h h2)] at hkey
    omega
  · rw [if_neg h2] at hkey
    by_cases h3 : y' ≤ z
    · rw [if_pos h3] at hkey
      omega
    · rw [if_neg h3] at hkey
      omega

/-- Replacing one entry with a smaller value leaves the final order
statistics unchanged, as long as the position looked at lies at or above the
block of entries equal to the replaced value. -/
theorem sortOf_set_suffix (xs : List ℚ) (m : Nat) (hm : m < xs.length) (y' : ℚ)
    (hyy : y' ≤ xs.getD m 0) {i : Nat} (hi : i < xs.length)
    (hige : cntLE xs (xs.getD m 0) ≤ i) :
    (sortOf (xs.set m y')).getD i 0 = (sortOf xs).getD i 0 := by
  have hlen : (xs.set m y').length = xs.length := List.length_set xs m y'
  apply le_antisymm
  · -- new order statistic at most the old one
    set v := (sortOf xs).getD i 0 with hv
    have h1 : i < cntLE xs v := (sortOf_getD_le_iff xs hi v).mp (le_refl v)
    have h2 : cntLE xs v ≤ cntLE (xs.set m y') v := cntLE_set_ge xs m hm hyy v
    rw [sortOf_getD_le_iff (xs.set m y') (by rwa [hlen]) v]
    omega
  · -- old order statistic at most the new one
    set u := (sortOf (xs.set m y')).getD i 0 with hu
    have h1 : i < cntLE (xs.set m y') u := by
      rw [← sortOf_getD_le_iff (xs.set m y') (by rwa [hlen]) u]
    have hkey := cntLE_set xs m hm y' u
    rw [sortOf_getD_le_iff xs hi u]
    by_cases hcase : xs.getD m 0 ≤ u
    · rw [if_pos hcase, if_pos (le_trans hyy hcase)] at hkey
      omega
    · rw [if_neg hcase] at hkey
      have htie := cntLT_lt_cntLE_of_mem (getD_mem xs hm)
      have huy : cntLE xs u ≤ cntLT xs (xs.getD m 0) :=
        cntLE_le_cntLT_val xs (not_le.mp hcase)
      by_cases h3 : y' ≤ u
      · rw [if_pos h3] at hkey
        omega
      · rw [if_neg h3] at hkey
        omega

/-- When both interpolation positions lie at or above the replaced entry's
tie block, decreasing that entry leaves the quantile unchanged. -/
theorem quantile_set_of_suffix (xs : List ℚ) (m : Nat) (hm : m < xs.length)
    (q y' : ℚ) (hyy : y' ≤ xs.getD m 0)
    (hkk : (⌊q * ((xs.length : ℚ) - 1)⌋).toNat ≤ (⌈q * ((xs.length : ℚ) - 1)⌉).toNat)
    (hkh_len : (⌈q * ((xs.length : ℚ) - 1)⌉).toNat < xs.length)
    (hidx : cntLE xs (xs.getD m 0) ≤ (⌊q * ((xs.length : ℚ) - 1)⌋).toNat) :
    quantile (xs.set m y') q = quantile xs q := by
  have hlen : (xs.set m y').length = xs.length := List.length_set xs m y'
  have hkl_len : (⌊q * ((xs.length : ℚ) - 1)⌋).toNat < xs.length := by omega
  have e1 := sortOf_set_suffix xs m hm y' hyy hkh_len (by omega)
  have e2 := sortOf_set_suffix xs m hm y' hyy hkl_len hidx
  rw [quantile_expand, quantile_expand, hlen, e1, e2]

/-- After decreasing the entry at `m` (which sits at or below both old and
new lower bounds), clipping at the new bounds is the `clipShift` image of
clipping at the old bounds, provided every other entry falls on the same
side of the old and new bounds. -/
theorem winsorize_set_eq_map_lower (xs : List ℚ) (m : Nat) (hm : m < xs.length)
    (y' L H L' H' : ℚ)
    (hLH : L ≤ H) (hLH' : L' ≤ H')
    (hiff : L = H ↔ L' = H')
    (hyL : xs.getD m 0 ≤ L) (hyL' : y' ≤ L')
    (helem : ∀ i : Nat, i < xs.length → i ≠ m →
      ((xs.getD i 0 ≤ L ↔ xs.getD i 0 ≤ L')
        ∧ (H ≤ xs.getD i 0 ↔ H' ≤ xs.getD i 0))) :
    winsorize L' H' (xs.set m y') = (winsorize L H xs).map (clipShift L H L' H') := by
  apply List.ext_getElem
  · simp [winsorize]
  · intro i h1 h2
    have hiN : i < xs.length := by
      simpa [winsorize] using h1
    simp only [winsorize, List.getElem_map, List.getElem_set]
    by_cases him : m = i
    · rw [if_pos him]
      subst him
      have hy2 : xs.getD m 0 = xs[m] := List.getD_eq_getElem xs 0 hm
      rw [hy2] at hyL
      have hcl1 : min (max xs[m] L) H = L := by
        rw [max_eq_right hyL]
        exact min_eq_left hLH
      have hcl2 : min (max y' L') H' = L' := by
        rw [max_eq_right hyL']
        exact min_eq_left hLH'
      rw [hcl1, hcl2]
      by_cases h5 : L = H
      · rw [clipShift, if_pos h5]
        exact hiff.mp h5
      · rw [clipShift, if_neg h5, if_pos rfl]
    · rw [if_neg him]
      have hv := helem i hiN (fun h => him h.symm)
      rw [List.getD_eq_getElem xs 0 hiN] at hv
      obtain ⟨hvL, hvH⟩ := hv
      rcases le_or_lt xs[i] L with h3 | h3
      · have h4 : xs[i] ≤ L' := hvL.mp h3
        have hcl1 : min (max xs[i] L) H = L := by
          rw [max_eq_right h3]
          exact min_eq_left hLH
        have hcl2 : min (max xs[i] L') H' = L' := by
          rw [max_eq_right h4]
          exact min_eq_left hLH'
        rw [hcl1, hcl2]
        by_cases h5 : L = H
        · rw [clipShift, if_pos h5, hiff.mp h5]
        · rw [clipShift, if_neg h5, if_pos rfl]
      · rcases lt_or_le xs[i] H with h4 | h4
        · have h5 : ¬ xs[i] ≤ L' := fun hc => absurd (hvL.mpr hc) (not_le.mpr h3)
          have h6 : ¬ H' ≤ xs[i] := fun hc => absurd (hvH.mpr hc) (not_le.mpr h4)
          have hcl1 : min (max xs[i] L) H = xs[i] := by
            rw [max_eq_left (le_of_lt h3)]
            exact min_eq_left (le_of_lt h4)
          have hcl2 : min (max xs[i] L') H' = xs[i] := by
            rw [max_eq_left (le_of_lt (not_le.mp h5))]
            exact min_eq_left (le_of_lt (not_le.mp h6))
          rw [hcl1, hcl2, clipShift, if_neg (ne_of_lt h4), if_neg (ne_of_gt h3)]
        · have h5 : H' ≤ xs[i] := hvH.mp h4
          have hcl1 : min (max xs[i] L) H = H := by
            rw [max_eq_left (le_trans hLH h4)]
            exact min_eq_right h4
          have hcl2 : min (max xs[i] L') H' = H' := by
            rw [max_eq_left (le_trans hLH' h5)]
            exact min_eq_right h5
          rw [hcl1, hcl2, clipShift, if_pos rfl]

set_option maxHeartbeats 1600000 in
/-- Decreasing the entry at `m` when it already lies strictly below the lower
quantile: the new lower clip bound stays at or above the new value, collapse of
the two clip bounds is preserved in both directions, and every other entry
compares the same way to the old and the new bounds. -/
theorem quantile_set_lower (xs : List ℚ) (m : Nat) (hm : m < xs.length)
    (y y' lq uq : ℚ) (hy : xs.getD m 0 = y)
    (hq0 : 0 ≤ lq) (hq12 : lq ≤ uq) (hq1 : uq ≤ 1)
    (hyq : y < quantile xs lq) (hyy : y' < y) :
    y' ≤ quantile (xs.set m y') lq
    ∧ (quantile xs lq = quantile xs uq ↔
        quantile (xs.set m y') lq = quantile (xs.set m y') uq)
    ∧ (∀ i : Nat, i < xs.length → i ≠ m →
        ((xs.getD i 0 ≤ quantile xs lq ↔ xs.getD i 0 ≤ quantile (xs.set m y') lq)
          ∧ (quantile xs uq ≤ xs.getD i 0 ↔ quantile (xs.set m y') uq ≤ xs.getD i 0))) := by
  have hn : 1 ≤ xs.length := by omega
  have hn1 : (0 : ℚ) ≤ (xs.length : ℚ) - 1 := by
    have h : (1 : ℚ) ≤ (xs.length : ℚ) := by exact_mod_cast hn
    linarith
  have hlen' : (xs.set m y').length = xs.length := List.length_set xs m y'
  have hyy' : y' ≤ xs.getD m 0 := by rw [hy]; exact le_of_lt hyy
  have huq0 : 0 ≤ uq := le_trans hq0 hq12
  have hlq1 : lq ≤ 1 := le_trans hq12 hq1
  obtain ⟨hflU0, hkhU_len, hkkU, hsegU⟩ := quantile_pos_bounds xs uq huq0 hq1 hn
  obtain ⟨hflL0, hkhL_len, hkkL, hsegL⟩ := quantile_pos_bounds xs lq hq0 hlq1 hn
  have hhle : lq * ((xs.length : ℚ) - 1) ≤ uq * ((xs.length : ℚ) - 1) :=
    mul_le_mul_of_nonneg_right hq12 hn1
  have hflLU : ⌊lq * ((xs.length : ℚ) - 1)⌋ ≤ ⌊uq * ((xs.length : ℚ) - 1)⌋ :=
    Int.floor_le_floor hhle
  have hclLU : ⌈lq * ((xs.length : ℚ) - 1)⌉ ≤ ⌈uq * ((xs.length : ℚ) - 1)⌉ :=
    Int.ceil_le_ceil hhle
  have hy_mem : y ∈ xs := by rw [← hy]; exact getD_mem xs hm
  have htie : cntLT xs y < cntLE xs y := cntLT_lt_cntLE_of_mem hy_mem
  have hqlu : quantile xs lq ≤ quantile xs uq := quantile_mono xs hq0 hq12 hq1 hn
  have hkhl_ge : cntLE xs y ≤ (⌈lq * ((xs.length : ℚ) - 1)⌉).toNat := by
    by_contra hcon
    push_neg at hcon
    have h1 : (sortOf xs).getD (⌈lq * ((xs.length : ℚ) - 1)⌉).toNat 0 ≤ y :=
      (sortOf_getD_le_iff xs hkhL_len y).mpr hcon
    have h2 := (quantile_between xs lq hq0 hlq1 hn).2
    linarith
  rcases Nat.lt_or_ge (⌊lq * ((xs.length : ℚ) - 1)⌋).toNat (cntLE xs y) with hcase | hcase
  · -- Case 2: the lower quantile interpolates on the segment whose lower end
    -- is the top of the replaced entry's tie block.
    set a := (⌈lq * ((xs.length : ℚ) - 1)⌉).toNat with ha_def
    have ha_eq : cntLE xs y = a := by omega
    have hklL_eq : (⌊lq * ((xs.length : ℚ) - 1)⌋).toNat = a - 1 := by omega
    have ha1 : 1 ≤ a := by omega
    have hcLT_le : cntLT xs y ≤ a - 1 := by omega
    have hflL_int : ⌊lq * ((xs.length : ℚ) - 1)⌋ = (a : ℤ) - 1 := by omega
    have hclL_int : ⌈lq * ((xs.length : ℚ) - 1)⌉ = (a : ℤ) := by omega
    have ha_len : a < xs.length := hkhL_len
    have ha1_len : a - 1 < xs.length := by omega
    have hPa1 : (sortOf xs).getD (a - 1) 0 = y := by
      apply le_antisymm
      · exact (sortOf_getD_le_iff xs ha1_len y).mpr (by omega)
      · exact (sortOf_le_getD_iff xs ha1_len y).mpr (by omega)
    have hPa_gt : y < (sortOf xs).getD a 0 := by
      have h1 := (quantile_between xs lq hq0 hlq1 hn).2
      have h2 : quantile xs lq ≤ (sortOf xs).getD a 0 := by
        rw [ha_def]
        exact h1
      linarith
    have hcLT' : cntLT (xs.set m y') y = cntLT xs y + 1 := by
      have hkey := cntLT_set xs m hm y' y
      rw [hy, if_neg (lt_irrefl y), if_pos hyy] at hkey
      omega
    have hcLE'_y : cntLE (xs.set m y') y = a := by
      have hkey := cntLE_set xs m hm y' y
      rw [hy, if_pos (le_refl y), if_pos (le_of_lt hyy)] at hkey
      omega
    have hcLTy' : cntLT (xs.set m y') y' = cntLT xs y' := by
      have hkey := cntLT_set xs m hm y' y'
      rw [hy, if_neg (not_lt.mpr (le_of_lt hyy)), if_neg (lt_irrefl y')] at hkey
      omega
    have hcLTy'_le : cntLT xs y' ≤ cntLT xs y := cntLT_mono_val xs (le_of_lt hyy)
    have ha_len2 : a < (xs.set m y').length := by omega
    have ha1_len2 : a - 1 < (xs.set m y').length := by omega
    have hP'a : (sortOf (xs.set m y')).getD a 0 = (sortOf xs).getD a 0 := by
      apply sortOf_set_suffix xs m hm y' hyy' ha_len
      rw [hy]
      omega
    have hb0_le_y : (sortOf (xs.set m y')).getD (a - 1) 0 ≤ y :=
      (sortOf_getD_le_iff (xs.set m y') ha1_len2 y).mpr (by omega)
    have hy'_b0 : y' ≤ (sortOf (xs.set m y')).getD (a - 1) 0 :=
      (sortOf_le_getD_iff (xs.set m y') ha1_len2 y').mpr (by omega)
    have hb0_lt_Pa : (sortOf (xs.set m y')).getD (a - 1) 0 < (sortOf xs).getD a 0 :=
      lt_of_le_of_lt hb0_le_y hPa_gt
    -- segment forms for the lower quantile
    have hflL_int' : ⌊lq * (((xs.set m y').length : ℚ) - 1)⌋ = (a : ℤ) - 1 := by
      rw [hlen']
      exact hflL_int
    have hclL_int' : ⌈lq * (((xs.set m y').length : ℚ) - 1)⌉ = (a : ℤ) := by
      rw [hlen']
      exact hclL_int
    have hql_form := quantile_segment_form xs lq a ha1 hflL_int hclL_int
    rw [hPa1] at hql_form
    have hql'_form := quantile_segment_form (xs.set m y') lq a ha1 hflL_int' hclL_int'
    rw [hlen', hP'a] at hql'_form
    have hflq_nonneg : ((a : ℚ) - 1) ≤ lq * ((xs.length : ℚ) - 1) := by
      have h := Int.floor_le (lq * ((xs.length : ℚ) - 1))
      rw [hflL_int] at h
      push_cast at h
      linarith
    have hflq_lt : lq * ((xs.length : ℚ) - 1) < (a : ℚ) := by
      have h := Int.lt_floor_add_one (lq * ((xs.length : ℚ) - 1))
      rw [hflL_int] at h
      push_cast at h
      linarith
    have hflq_pos : ((a : ℚ) - 1) < lq * ((xs.length : ℚ) - 1) := by
      rcases lt_or_eq_of_le hflq_nonneg with h | h
      · exact h
      · exfalso
        have hceq : ⌈lq * ((xs.length : ℚ) - 1)⌉ = (a : ℤ) - 1 := by
          rw [← h]
          have hc : ((a : ℚ) - 1) = (((a : ℤ) - 1 : ℤ) : ℚ) := by push_cast; ring
          rw [hc, Int.ceil_intCast]
        omega
    have hql_lt_Pa : quantile xs lq < (sortOf xs).getD a 0 := by
      rw [hql_form]
      have hmul := mul_pos
        (show (0:ℚ) < (a : ℚ) - lq * ((xs.length : ℚ) - 1) by linarith)
        (show (0:ℚ) < (sortOf xs).getD a 0 - y by linarith)
      linarith [hmul]
    have hql'_lt_Pa : quantile (xs.set m y') lq < (sortOf xs).getD a 0 := by
      rw [hql'_form]
      have hmul := mul_pos
        (show (0:ℚ) < (a : ℚ) - lq * ((xs.length : ℚ) - 1) by linarith)
        (show (0:ℚ) < (sortOf xs).getD a 0 - (sortOf (xs.set m y')).getD (a - 1) 0 by
          linarith)
      linarith [hmul]
    have hql'_ge_b0 : (sortOf (xs.set m y')).getD (a - 1) 0 ≤ quantile (xs.set m y') lq := by
      rw [hql'_form]
      have hmul := mul_nonneg
        (show (0:ℚ) ≤ lq * ((xs.length : ℚ) - 1) - ((a : ℚ) - 1) by linarith)
        (show (0:ℚ) ≤ (sortOf xs).getD a 0 - (sortOf (xs.set m y')).getD (a - 1) 0 by
          linarith)
      linarith [hmul]
    have hpart_a : y' ≤ quantile (xs.set m y') lq := le_trans hy'_b0 hql'_ge_b0
    -- every other entry lies weakly below the new bottom order statistic or
    -- weakly above the top one
    have hvlow : ∀ i : Nat, i < xs.length → i ≠ m → xs.getD i 0 ≤ y →
        xs.getD i 0 ≤ (sortOf (xs.set m y')).getD (a - 1) 0 := by
      intro i hi hne hvy
      have hvmem : xs.getD i 0 ∈ xs.set m y' := by
        have h := getD_set_ne xs m i y' 0 (Ne.symm hne)
        rw [← h]
        exact getD_mem (xs.set m y') (by omega)
      have h2 := cntLT_lt_cntLE_of_mem hvmem
      rcases lt_or_eq_of_le hvy with hvlt | hveq
      · have h1 : cntLE (xs.set m y') (xs.getD i 0) ≤ cntLT (xs.set m y') y :=
          cntLE_le_cntLT_val (xs.set m y') hvlt
        exact (sortOf_le_getD_iff (xs.set m y') ha1_len2 (xs.getD i 0)).mpr (by omega)
      · -- a second copy of the replaced value: its tie block has size at
        -- least two, so the new strict count still fits below `a - 1`
        have hymem2 : y ∈ xs.eraseIdx m := by
          rw [← hveq]
          exact getD_mem_eraseIdx xs m i hi hne
        have h3 : cntLE xs y = 1 + cntLE (xs.eraseIdx m) y := by
          rw [cntLE_perm (perm_cons_eraseIdx xs m hm), cntLE_cons, hy, if_pos (le_refl y)]
        have h4 : cntLT xs y = cntLT (xs.eraseIdx m) y := by
          rw [cntLT_perm (perm_cons_eraseIdx xs m hm), cntLT_cons, hy, if_neg (lt_irrefl y)]
          omega
        have h5 := cntLT_lt_cntLE_of_mem hymem2
        have h6 : cntLT (xs.set m y') (xs.getD i 0) = cntLT (xs.set m y') y := by
          rw [hveq]
        exact (sortOf_le_getD_iff (xs.set m y') ha1_len2 (xs.getD i 0)).mpr (by omega)
    have hvhigh : ∀ i : Nat, i < xs.length → y < xs.getD i 0 →
        (sortOf xs).getD a 0 ≤ xs.getD i 0 := by
      intro i hi hyv
      have h1 : cntLE xs y ≤ cntLT xs (xs.getD i 0) := cntLE_le_cntLT_val xs hyv
      have h2 : cntLT xs (xs.getD i 0) < cntLE xs (xs.getD i 0) :=
        cntLT_lt_cntLE_of_mem (getD_mem xs hi)
      exact (sortOf_getD_le_iff xs ha_len (xs.getD i 0)).mpr (by omega)
    -- the element iffs for the lower bound need no further case analysis
    have hlq_iff : ∀ i : Nat, i < xs.length → i ≠ m →
        (xs.getD i 0 ≤ quantile xs lq ↔ xs.getD i 0 ≤ quantile (xs.set m y') lq) := by
      intro i hi hne
      rcases le_or_lt (xs.getD i 0) y with hvy | hvy
      · have hv1 := hvlow i hi hne hvy
        exact iff_of_true (by linarith [hyq]) (by linarith [hql'_ge_b0])
      · have hv2 := hvhigh i hi hvy
        exact iff_of_false (by intro hcon; linarith [hql_lt_Pa])
          (by intro hcon; linarith [hql'_lt_Pa])
    rcases Nat.lt_or_ge (⌊uq * ((xs.length : ℚ) - 1)⌋).toNat a with hu_seg | hu_suf
    · -- the upper quantile interpolates on the same segment
      have hklU_eq : (⌊uq * ((xs.length : ℚ) - 1)⌋).toNat = a - 1 := by omega
      have hkhU_eq : (⌈uq * ((xs.length : ℚ) - 1)⌉).toNat = a := by omega
      have hflU_int : ⌊uq * ((xs.length : ℚ) - 1)⌋ = (a : ℤ) - 1 := by omega
      have hclU_int : ⌈uq * ((xs.length : ℚ) - 1)⌉ = (a : ℤ) := by omega
      have hflU_int' : ⌊uq * (((xs.set m y').length : ℚ) - 1)⌋ = (a : ℤ) - 1 := by
        rw [hlen']
        exact hflU_int
      have hclU_int' : ⌈uq * (((xs.set m y').length : ℚ) - 1)⌉ = (a : ℤ) := by
        rw [hlen']
        exact hclU_int
      have hqh_form := quantile_segment_form xs uq a ha1 hflU_int hclU_int
      rw [hPa1] at hqh_form
      have hqh'_form := quantile_segment_form (xs.set m y') uq a ha1 hflU_int' hclU_int'
      rw [hlen', hP'a] at hqh'_form
      have hfuq_nonneg : ((a : ℚ) - 1) ≤ uq * ((xs.length : ℚ) - 1) := by
        have h := Int.floor_le (uq * ((xs.length : ℚ) - 1))
        rw [hflU_int] at h
        push_cast at h
        linarith
      have hfuq_lt : uq * ((xs.length : ℚ) - 1) < (a : ℚ) := by
        have h := Int.lt_floor_add_one (uq * ((xs.length : ℚ) - 1))
        rw [hflU_int] at h
        push_cast at h
        linarith
      have hfuq_pos : ((a : ℚ) - 1) < uq * ((xs.length : ℚ) - 1) := by
        rcases lt_or_eq_of_le hfuq_nonneg with h | h
        · exact h
        · exfalso
          have hceq : ⌈uq * ((xs.length : ℚ) - 1)⌉ = (a : ℤ) - 1 := by
            rw [← h]
            have hc : ((a : ℚ) - 1) = (((a : ℤ) - 1 : ℤ) : ℚ) := by push_cast; ring
            rw [hc, Int.ceil_intCast]
          omega
      have hqh_le_Pa : quantile xs uq ≤ (sortOf xs).getD a 0 := by
        rw [hqh_form]
        have hmul := mul_nonneg
          (show (0:ℚ) ≤ (a : ℚ) - uq * ((xs.length : ℚ) - 1) by linarith)
          (show (0:ℚ) ≤ (sortOf xs).getD a 0 - y by linarith)
        linarith [hmul]
      have hqh'_le_Pa : quantile (xs.set m y') uq ≤ (sortOf xs).getD a 0 := by
        rw [hqh'_form]
        have hmul := mul_nonneg
          (show (0:ℚ) ≤ (a : ℚ) - uq * ((xs.length : ℚ) - 1) by linarith)
          (show (0:ℚ) ≤ (sortOf xs).getD a 0 - (sortOf (xs.set m y')).getD (a - 1) 0 by
            linarith)
        linarith [hmul]
      have hqh'_gt_b0 : (sortOf (xs.set m y')).getD (a - 1) 0 < quantile (xs.set m y') uq := by
        rw [hqh'_form]
        have hmul := mul_pos
          (show (0:ℚ) < uq * ((xs.length : ℚ) - 1) - ((a : ℚ) - 1) by linarith)
          (show (0:ℚ) < (sortOf xs).getD a 0 - (sortOf (xs.set m y')).getD (a - 1) 0 by
            linarith)
        linarith [hmul]
      refine ⟨hpart_a, ?_, ?_⟩
      · constructor
        · intro h
          rw [hql_form, hqh_form] at h
          have h2 : (lq * ((xs.length : ℚ) - 1) - ((a : ℚ) - 1)) * ((sortOf xs).getD a 0 - y)
              = (uq * ((xs.length : ℚ) - 1) - ((a : ℚ) - 1)) * ((sortOf xs).getD a 0 - y) := by
            linarith
          have h3 := mul_right_cancel₀
            (show (sortOf xs).getD a 0 - y ≠ 0 from ne_of_gt (by linarith)) h2
          rw [hql'_form, hqh'_form, h3]
        · intro h
          rw [hql'_form, hqh'_form] at h
          have h2 : (lq * ((xs.length : ℚ) - 1) - ((a : ℚ) - 1))
                * ((sortOf xs).getD a 0 - (sortOf (xs.set m y')).getD (a - 1) 0)
              = (uq * ((xs.length : ℚ) - 1) - ((a : ℚ) - 1))
                * ((sortOf xs).getD a 0 - (sortOf (xs.set m y')).getD (a - 1) 0) := by
            linarith
          have h3 := mul_right_cancel₀
            (show (sortOf xs).getD a 0 - (sortOf (xs.set m y')).getD (a - 1) 0 ≠ 0 from
              ne_of_gt (by linarith)) h2
          rw [hql_form, hqh_form, h3]
      · intro i hi hne
        refine ⟨hlq_iff i hi hne, ?_⟩
        rcases le_or_lt (xs.getD i 0) y with hvy | hvy
        · have hv1 := hvlow i hi hne hvy
          exact iff_of_false (by intro hcon; linarith [hyq, hqlu])
            (by intro hcon; linarith [hqh'_gt_b0])
        · have hv2 := hvhigh i hi hvy
          exact iff_of_true (by linarith [hqh_le_Pa]) (by linarith [hqh'_le_Pa])
    · -- the upper quantile reads entirely from the stable suffix
      have hqh' : quantile (xs.set m y') uq = quantile xs uq := by
        apply quantile_set_of_suffix xs m hm uq y' hyy' hkkU hkhU_len
        rw [hy]
        omega
      have hqh_ge_Pa : (sortOf xs).getD a 0 ≤ quantile xs uq := by
        have h1 := (quantile_between xs uq huq0 hq1 hn).1
        have h2 : (sortOf xs).getD a 0
            ≤ (sortOf xs).getD (⌊uq * ((xs.length : ℚ) - 1)⌋).toNat 0 := by
          apply sorted_getD_mono (sortOf_sorted xs) hu_suf
          rw [sortOf_length]
          omega
        linarith
      refine ⟨hpart_a, ?_, ?_⟩
      · exact iff_of_false (fun h => by linarith [hql_lt_Pa, hqh_ge_Pa])
          (fun h => by rw [hqh'] at h; linarith [hql'_lt_Pa, hqh_ge_Pa])
      · intro i hi hne
        exact ⟨hlq_iff i hi hne, by rw [hqh']⟩
  · -- Case 1: both interpolation positions lie in the stable suffix and
    -- neither bound moves.
    have hql' : quantile (xs.set m y') lq = quantile xs lq := by
      apply quantile_set_of_suffix xs m hm lq y' hyy' hkkL hkhL_len
      rw [hy]
      exact hcase
    have hqh' : quantile (xs.set m y') uq = quantile xs uq := by
      apply quantile_set_of_suffix xs m hm uq y' hyy' hkkU hkhU_len
      rw [hy]
      omega
    rw [hql', hqh']
    exact ⟨le_of_lt (lt_trans hyy hyq), Iff.rfl, fun i hi hne => ⟨Iff.rfl, Iff.rfl⟩⟩

theorem drop_set_of_le {α : Type} (l : List α) (n i : Nat) (a : α) (h : n ≤ i) :
    (l.set i a).drop n = (l.drop n).set (i - n) a := by
  apply List.ext_getElem?
  intro m
  rw [List.getElem?_drop, List.getElem?_set, List.getElem?_set, List.getElem?_drop,
    List.length_drop]
  split_ifs <;> first | rfl | (exfalso; omega)

/-- First position of the historical slice at `t`: `0` in expanding mode,
`max 0 (t + 1 - window)` in rolling mode. -/
def winStart (window : Option Nat) (t : Nat) : Nat :=
  match window with
  | none => 0
  | some w => t + 1 - w

theorem histSlice_eq (w : Option Nat) (s : Col) (t : Nat) :
    histSlice w s t = dropna ((s.take (t + 1)).drop (winStart w t)) := by
  cases w <;> simp [histSlice, winStart]

/-- Replacing a present entry of the raw column replaces exactly one entry of
its NaN-dropped image, at the position counting the present entries before
it; that position carries the old value. -/
theorem filterMap_set_some (l : Col) (j : Nat) (v v' : ℚ)
    (hj : l.getD j none = some v) :
    dropna (l.set j (some v'))
      = (dropna l).set ((dropna (l.take j)).length) v'
    ∧ (dropna l).getD ((dropna (l.take j)).length) 0 = v
    ∧ (dropna (l.take j)).length < (dropna l).length := by
  induction l generalizing j with
  | nil =>
    rw [List.getD_eq_getElem?_getD] at hj
    simp at hj
  | cons x xs ih =>
    cases j with
    | zero =>
      have hx : x = some v := by simpa [List.getD] using hj
      subst hx
      refine ⟨?_, ?_, ?_⟩
      · simp [dropna]
      · simp [dropna, List.getD]
      · simp [dropna]
    | succ j =>
      have hj' : xs.getD j none = some v := by simpa [List.getD] using hj
      obtain ⟨ih1, ih2, ih3⟩ := ih j hj'
      cases x with
      | none =>
        refine ⟨?_, ?_, ?_⟩
        · simpa [dropna] using ih1
        · simpa [dropna] using ih2
        · simpa [dropna] using ih3
      | some w =>
        refine ⟨?_, ?_, ?_⟩
        · simpa [dropna, List.getD, ih1] using congrArg (List.cons w) ih1
        · simpa [dropna, List.getD] using ih2
        · simpa [dropna] using ih3

/-- Replacing an in-window present entry of the raw series replaces exactly
one entry of the historical sample at `t`, and that entry held the old
value. -/
theorem histSlice_set (w : Option Nat) (s : Col) (t j : Nat) (v v' : ℚ)
    (hjw : winStart w t ≤ j) (hjt : j ≤ t) (hv : s.getD j none = some v) :
    ∃ k : Nat, histSlice w (s.set j (some v')) t = (histSlice w s t).set k v'
      ∧ (histSlice w s t).getD k 0 = v ∧ k < (histSlice w s t).length := by
  have hbase_getD : ((s.take (t + 1)).drop (winStart w t)).getD (j - winStart w t) none
      = some v := by
    rw [List.getD_eq_getElem?_getD, List.getElem?_drop,
      show winStart w t + (j - winStart w t) = j from by omega, List.getElem?_take,
      if_pos (by omega), ← List.getD_eq_getElem?_getD]
    exact hv
  have hset_base : ((s.set j (some v')).take (t + 1)).drop (winStart w t)
      = ((s.take (t + 1)).drop (winStart w t)).set (j - winStart w t) (some v') := by
    rw [List.set_take, drop_set_of_le _ _ _ _ hjw]
  obtain ⟨h1, h2, h3⟩ :=
    filterMap_set_some ((s.take (t + 1)).drop (winStart w t)) (j - winStart w t) v v'
      hbase_getD
  refine ⟨(dropna (((s.take (t + 1)).drop (winStart w t)).take (j - winStart w t))).length,
    ?_, ?_, ?_⟩
  · rw [histSlice_eq, histSlice_eq, hset_base, h1]
  · rw [histSlice_eq]
    exact h2
  · rw [histSlice_eq]
    exact h3

/-- The winsorized sample when both quantile options are set. -/
theorem winsorizedSample_eq (cfg : ScoreConfig) (s : Col) (t : Nat) (lq uq : ℚ)
    (hlq : cfg.lower_q = some lq) (huq : cfg.upper_q = some uq) :
    winsorizedSample cfg s t
      = winsorize (quantile (histSlice cfg.window s t) lq)
          (quantile (histSlice cfg.window s t) uq) (histSlice cfg.window s t) := by
  unfold winsorizedSample
  rw [hlq, huq]

/-- Every value of the clipped sample is a good value for `clipShift`, as
long as the distinguished entry lies strictly outside the clip interval and
every other entry falls on the same side of the old and new bounds. -/
theorem winsorize_goodVal (hist : List ℚ) (k : Nat) (v : ℚ)
    (hgetk : hist.getD k 0 = v) (L H L' H' : ℚ) (hLH : L ≤ H)
    (hvout : H < v ∨ v < L)
    (helem : ∀ i : Nat, i < hist.length → i ≠ k →
      ((hist.getD i 0 ≤ L ↔ hist.getD i 0 ≤ L')
        ∧ (H ≤ hist.getD i 0 ↔ H' ≤ hist.getD i 0))) :
    ∀ w ∈ winsorize L H hist, GoodVal L H L' H' w := by
  intro w hw
  unfold winsorize at hw
  rw [List.mem_map] at hw
  obtain ⟨x, hx_mem, hxw⟩ := hw
  obtain ⟨i, hi, hix⟩ := List.mem_iff_getElem.mp hx_mem
  have hgetd : hist.getD i 0 = x := by
    rw [List.getD_eq_getElem _ _ hi, hix]
  rcases le_or_lt H x with hHx | hxH
  · left
    rw [← hxw, max_eq_left (le_trans hLH hHx), min_eq_right hHx]
  · rcases le_or_lt x L with hxL | hLx
    · have hwL : w = L := by
        rw [← hxw, max_eq_right hxL, min_eq_left hLH]
      by_cases hLHeq : L = H
      · left
        rw [hwL, hLHeq]
      · right
        left
        exact ⟨hwL ▸ hLHeq, hwL⟩
    · have hik : i ≠ k := by
        intro hik
        rw [hik, hgetk] at hgetd
        rcases hvout with hvout | hvout
        · rw [← hgetd] at hxH
          linarith
        · rw [← hgetd] at hLx
          linarith
      obtain ⟨hiffL, hiffH⟩ := helem i hi hik
      rw [hgetd] at hiffL hiffH
      have hwx : w = x := by
        rw [← hxw, max_eq_left (le_of_lt hLx), min_eq_left (le_of_lt hxH)]
      right
      right
      refine ⟨hwx ▸ hLx, hwx ▸ hxH, ?_, ?_⟩
      · rw [hwx]
        exact not_le.mp (fun hc => absurd (hiffL.mpr hc) (not_le.mpr hLx))
      · rw [hwx]
        exact not_le.mp (fun hc => absurd (hiffH.mpr hc) (not_le.mpr hxH))

/-- Replacing an in-window present entry lying strictly outside its clip
bounds by a value further outside leaves the pandas rank of the winsorized
sample, and the sample size, unchanged. -/
theorem winsorizedSample_set_rank (cfg : ScoreConfig) (s : Col) (t j : Nat)
    (v v' lq uq : ℚ)
    (hlq : cfg.lower_q = some lq) (huq : cfg.upper_q = some uq)
    (hq0 : 0 ≤ lq) (hq12 : lq ≤ uq) (hq1 : uq ≤ 1)
    (hjw : winStart cfg.window t ≤ j) (hjt : j ≤ t)
    (hv : s.getD j none = some v)
    (hchange : (quantile (histSlice cfg.window s t) uq < v ∧ v < v')
      ∨ (v < quantile (histSlice cfg.window s t) lq ∧ v' < v)) :
    rankPctLast (winsorizedSample cfg (s.set j (some v')) t)
      = rankPctLast (winsorizedSample cfg s t)
    ∧ (histSlice cfg.window (s.set j (some v')) t).length
      = (histSlice cfg.window s t).length := by
  obtain ⟨k, hset, hgetk, hk⟩ := histSlice_set cfg.window s t j v v' hjw hjt hv
  have hlen2 : (histSlice cfg.window (s.set j (some v')) t).length
      = (histSlice cfg.window s t).length := by
    rw [hset, List.length_set]
  refine ⟨?_, hlen2⟩
  have hn : 1 ≤ (histSlice cfg.window s t).length := by omega
  rw [winsorizedSample_eq cfg s t lq uq hlq huq,
    winsorizedSample_eq cfg (s.set j (some v')) t lq uq hlq huq, hset]
  have hW_ne : winsorize (quantile (histSlice cfg.window s t) lq)
      (quantile (histSlice cfg.window s t) uq) (histSlice cfg.window s t) ≠ [] := by
    intro hc
    have hlw : (winsorize (quantile (histSlice cfg.window s t) lq)
        (quantile (histSlice cfg.window s t) uq) (histSlice cfg.window s t)).length
        = (histSlice cfg.window s t).length := by
      simp [winsorize]
    rw [hc] at hlw
    simp at hlw
    omega
  have hLH : quantile (histSlice cfg.window s t) lq
      ≤ quantile (histSlice cfg.window s t) uq :=
    quantile_mono (histSlice cfg.window s t) hq0 hq12 hq1 hn
  have hLH' : quantile ((histSlice cfg.window s t).set k v') lq
      ≤ quantile ((histSlice cfg.window s t).set k v') uq :=
    quantile_mono ((histSlice cfg.window s t).set k v') hq0 hq12 hq1
      (by rw [List.length_set]; exact hn)
  rcases hchange with ⟨hup, hvv⟩ | ⟨hlo, hvv⟩
  · obtain ⟨hH', hcollapse, helem⟩ :=
      quantile_set_upper (histSlice cfg.window s t) k hk v v' lq uq hgetk
        hq0 hq12 hq1 hup hvv
    have hwins := winsorize_set_eq_map (histSlice cfg.window s t) k hk v'
      (quantile (histSlice cfg.window s t) lq)
      (quantile (histSlice cfg.window s t) uq)
      (quantile ((histSlice cfg.window s t).set k v') lq)
      (quantile ((histSlice cfg.window s t).set k v') uq)
      hLH hLH' hcollapse (by rw [hgetk]; exact le_of_lt hup) hH'
      (fun i hi hne => helem i hi hne)
    rw [hwins]
    apply rankPctLast_map_clipShift _ _ _ _ _ hW_ne hLH hLH' hcollapse
    apply winsorize_goodVal (histSlice cfg.window s t) k v hgetk _ _ _ _ hLH
      (Or.inl hup)
    exact fun i hi hne => helem i hi hne
  · obtain ⟨hL', hcollapse, helem⟩ :=
      quantile_set_lower (histSlice cfg.window s t) k hk v v' lq uq hgetk
        hq0 hq12 hq1 hlo hvv
    have hwins := winsorize_set_eq_map_lower (histSlice cfg.window s t) k hk v'
      (quantile (histSlice cfg.window s t) lq)
      (quantile (histSlice cfg.window s t) uq)
      (quantile ((histSlice cfg.window s t).set k v') lq)
      (quantile ((histSlice cfg.window s t).set k v') uq)
      hLH hLH' hcollapse (by rw [hgetk]; exact le_of_lt hlo) hL'
      (fun i hi hne => helem i hi hne)
    rw [hwins]
    apply rankPctLast_map_clipShift _ _ _ _ _ hW_ne hLH hLH' hcollapse
    apply winsorize_goodVal (histSlice cfg.window s t) k v hgetk _ _ _ _ hLH
      (Or.inr hlo)
    exact fun i hi hne => helem i hi hne

/-- C7: winsorization boundedness.  The score emitted by `percentile_score`
at any timestamp `t` is unchanged when an in-window present historical value
already strictly above the upper-quantile clip bound of the sample at `t` is
increased further, or one already strictly below the lower-quantile clip
bound is decreased further (the percentile rank behind the score is computed
on the winsorized sample, which moves in an order-preserving way). -/
theorem C7_winsorization_boundedness (cfg : ScoreConfig) (s : Col) (t j : Nat)
    (v v' lq uq : ℚ)
    (hlq : cfg.lower_q = some lq) (huq : cfg.upper_q = some uq)
    (hq0 : 0 ≤ lq) (hq12 : lq ≤ uq) (hq1 : uq ≤ 1)
    (hjw : winStart cfg.window t ≤ j) (hjt : j ≤ t)
    (hv : s.getD j none = some v)
    (hchange : (quantile (histSlice cfg.window s t) uq < v ∧ v < v')
      ∨ (v < quantile (histSlice cfg.window s t) lq ∧ v' < v)) :
    (percentile_score cfg (s.set j (some v'))).getD t none
      = (percentile_score cfg s).getD t none := by
  obtain ⟨hrank, hlen⟩ := winsorizedSample_set_rank cfg s t j v v' lq uq hlq huq
    hq0 hq12 hq1 hjw hjt hv hchange
  by_cases ht : t < s.length
  · rw [percentile_score_getD cfg _ t (by rw [List.length_set]; exact ht),
      percentile_score_getD cfg s t ht]
    cases hgt : s.getD t none with
    | none =>
      have hjne : j ≠ t := by
        intro h
        rw [h, hgt] at hv
        exact Option.noConfusion hv
      have hgt' : (s.set j (some v')).getD t none = none := by
        rw [getD_set_ne s j t (some v') none hjne]
        exact hgt
      unfold scoreAt
      rw [hgt, hgt']
    | some cur =>
      have hjlen : j < s.length := lt_of_le_of_lt hjt ht
      have hgt' : ∃ cur' : ℚ, (s.set j (some v')).getD t none = some cur' := by
        by_cases hjteq : j = t
        · refine ⟨v', ?_⟩
          subst hjteq
          rw [List.getD_eq_getElem?_getD, List.getElem?_set_self hjlen]
          rfl
        · exact ⟨cur, by rw [getD_set_ne s j t (some v') none hjteq]; exact hgt⟩
      obtain ⟨cur', hgt'⟩ := hgt'
      by_cases hmp : (histSlice cfg.window s t).length < cfg.min_periods
      · have hmp' : (histSlice cfg.window (s.set j (some v')) t).length
            < cfg.min_periods := by
          rw [hlen]
          exact hmp
        unfold scoreAt
        rw [hgt, hgt']
        simp [hmp, hmp']
      · have hmp' : ¬ (histSlice cfg.window (s.set j (some v')) t).length
            < cfg.min_periods := by
          rw [hlen]
          exact hmp
        rw [scoreAt_defined cfg s t cur hgt hmp,
          scoreAt_defined cfg (s.set j (some v')) t cur' hgt' hmp', hrank]
  · push_neg at ht
    rw [percentile_score_getD_oob cfg s t ht,
      percentile_score_getD_oob cfg (s.set j (some v')) t
        (by rw [List.length_set]; exact ht)]

/-- Configuration used by the C7 witness: expanding window, warm-up of one,
winsorization at the 0th and 50th percentiles. -/
def cfgC7 : ScoreConfig :=
  { invert := false, min_periods := 1, window := none,
    lower_q := some 0, upper_q := some (1 / 2) }

/-- Witness for C7 at a concrete series: the entry `10` at position 0 lies
strictly above the median clip bound `2` of the sample at `t = 2`, and
raising it to `20` leaves the score at `t = 2` unchanged. -/
theorem C7_winsorization_boundedness_witness :
    quantile (histSlice cfgC7.window [some 10, some 1, some 2] 2) (1 / 2) < 10
    ∧ (percentile_score cfgC7 ([some 10, some 1, some 2].set 0 (some 20))).getD 2 none
        = (percentile_score cfgC7 [some 10, some 1, some 2]).getD 2 none :=
  ⟨by decide,
    C7_winsorization_boundedness cfgC7 [some 10, some 1, some 2] 2 0 10 20 0 (1 / 2)
      rfl rfl (by decide) (by decide) (by decide) (by decide) (by decide) (by decide)
      (Or.inl ⟨by decide, by decide⟩)⟩

end

end FGI
